import Mathlib

/-!
Verification of `text-range-utils` (`src/index.ts`, current revision: the one
with `getTextNodes`, `getTextNodesInRange`, `wrapTextNode`, `wrapRangeTextNodes`,
`getRangesOfText`).

The library operates on the host DOM.  We shallowly embed the fragment of the
WHATWG DOM that the source calls:

* a document is a tree of element nodes (tag, ordered children) and text
  nodes (character data); every node carries a numeric id modelling JS
  object identity (`===`);
* a node reference inside a fixed document is a *path*: the list of child
  indices from the document root;
* a `Range` is the quadruple (startContainer, startOffset, endContainer,
  endOffset); DOM boundary-point order is the lexicographic order on
  `path ++ [offset]`;
* `TreeWalker(root, SHOW_TEXT, filter)` enumerates, in pre-order document
  order, the text descendants of `root` accepted by the filter; the source
  additionally returns `walker.currentNode` itself, unfiltered, when the
  traversal root is a text node;
* `Range.surroundContents(newParent)` for a range lying inside a single text
  node follows the spec algorithms `extract`, `split a Text node` and
  `insert a node into a range`: the `[start, end)` slice of the data is moved
  into a clone of the wrapper, the original node keeps the data before
  `start`, and a freshly created text node after the wrapper receives the
  data after `end` (these flanking text nodes exist even when empty);
* `parent.insertBefore(node, ref)` throws a `TypeError` when `node` is
  `null`, which happens in `unwrapTextNode` when the wrapper has no child.

Character data is modelled as `List Char` (JS string code units), offsets as
`Nat`.  Element tags are stored in canonical (lower-case) form, matching how
HTML tag-name selectors compare; the source lower-cases the configured
`disallowedAncestorTags` entries before matching, which we model with
character-wise lower-casing (`lowerTag`).
-/

namespace TextRangeUtils

/-- A DOM node: a text node with character data, or an element with a tag and
ordered children.  `id` models JavaScript object identity. -/
inductive DNode : Type where
  | text (id : Nat) (data : List Char)
  | elem (id : Nat) (tag : String) (children : List DNode)
deriving Repr

mutual

/-- Boolean equality on nodes (the derive handler does not support the nested
occurrence of `List DNode`). -/
def dnodeBEq : DNode → DNode → Bool
  | .text i d, .text j e => i == j && d == e
  | .elem i t cs, .elem j u ds => i == j && t == u && dnodeListBEq cs ds
  | _, _ => false

/-- Boolean equality on lists of nodes. -/
def dnodeListBEq : List DNode → List DNode → Bool
  | [], [] => true
  | a :: as, b :: bs => dnodeBEq a b && dnodeListBEq as bs
  | _, _ => false

end

mutual

/-- `dnodeBEq` decides equality. -/
def dnodeBEq_iff : (a b : DNode) → (dnodeBEq a b = true ↔ a = b)
  | .text _ _, .text _ _ => by simp [dnodeBEq]
  | .text _ _, .elem _ _ _ => by simp [dnodeBEq]
  | .elem _ _ _, .text _ _ => by simp [dnodeBEq]
  | .elem i t cs, .elem j u ds => by
      have h := dnodeListBEq_iff cs ds
      simp [dnodeBEq, h, and_assoc]

/-- `dnodeListBEq` decides equality. -/
def dnodeListBEq_iff : (as bs : List DNode) → (dnodeListBEq as bs = true ↔ as = bs)
  | [], [] => by simp [dnodeListBEq]
  | [], _ :: _ => by simp [dnodeListBEq]
  | _ :: _, [] => by simp [dnodeListBEq]
  | a :: as, b :: bs => by
      have h1 := dnodeBEq_iff a b
      have h2 := dnodeListBEq_iff as bs
      simp [dnodeListBEq, h1, h2]

end

instance : DecidableEq DNode := fun a b => decidable_of_iff _ (dnodeBEq_iff a b)

/-- The id of a node (JS object identity). -/
def topId : DNode → Nat
  | .text i _ => i
  | .elem i _ _ => i

/-- Whether a node is a text node (`nodeType === Node.TEXT_NODE`). -/
def isText : DNode → Bool
  | .text _ _ => true
  | .elem _ _ _ => false

/-- Resolve a path (list of child indices) to the node it denotes, if any. -/
def nodeAt : DNode → List Nat → Option DNode
  | n, [] => some n
  | .text _ _, _ :: _ => none
  | .elem _ _ cs, i :: p =>
    match cs[i]? with
    | some c => nodeAt c p
    | none => none

mutual

/-- Paths (relative to the given node) of all text nodes in its subtree,
in pre-order document order.  A text node yields itself (`[[]]`). -/
def leafPathsRel : DNode → List (List Nat)
  | .text _ _ => [[]]
  | .elem _ _ cs => leafPathsRelList cs 0

/-- Paths of text nodes under a list of siblings whose first sibling has
child index `i`, in document order. -/
def leafPathsRelList : List DNode → Nat → List (List Nat)
  | [], _ => []
  | c :: cs, i => (leafPathsRel c).map (i :: ·) ++ leafPathsRelList cs (i + 1)

end

mutual

/-- Ids of all nodes in a subtree, in pre-order. -/
def nodeIds : DNode → List Nat
  | .text i _ => [i]
  | .elem i _ cs => i :: nodeIdsList cs

/-- Ids of all nodes under a list of siblings. -/
def nodeIdsList : List DNode → List Nat
  | [] => []
  | c :: cs => nodeIds c ++ nodeIdsList cs

end

mutual

/-- The first node (in pre-order) carrying the given id, if any.  With the
unique ids of a real DOM this resolves a JS object reference. -/
def findNode (tid : Nat) : DNode → Option DNode
  | .text i d => if i = tid then some (.text i d) else none
  | .elem i t cs => if i = tid then some (.elem i t cs) else findNodeList tid cs

/-- `findNode` over a list of siblings. -/
def findNodeList (tid : Nat) : List DNode → Option DNode
  | [] => none
  | c :: cs =>
    match findNode tid c with
    | some n => some n
    | none => findNodeList tid cs

end

/-- Strict DOM boundary-point order, encoded on keys `path ++ [offset]`:
lexicographic order on `List Nat` where a strict prefix comes first.  This is
exactly the WHATWG "position of a boundary point relative to another"
comparison. -/
def keyLt : List Nat → List Nat → Bool
  | [], [] => false
  | [], _ :: _ => true
  | _ :: _, [] => false
  | a :: as, b :: bs => decide (a < b) || (decide (a = b) && keyLt as bs)

/-- Increment the last entry of a path: the boundary point just after a
node's slot in its parent (`(parent, index + 1)`). -/
def incLast : List Nat → List Nat
  | [] => []
  | [i] => [i + 1]
  | i :: j :: rest => i :: incLast (j :: rest)

/-- A DOM `Range`: (startContainer, startOffset, endContainer, endOffset),
containers as paths into a fixed document. -/
structure DRange : Type where
  startPath : List Nat
  startOff : Nat
  endPath : List Nat
  endOff : Nat
deriving Repr, DecidableEq

/-- The key of a range's start boundary point. -/
def startKey (r : DRange) : List Nat := r.startPath ++ [r.startOff]

/-- The key of a range's end boundary point. -/
def endKey (r : DRange) : List Nat := r.endPath ++ [r.endOff]

/-- Longest common prefix of two paths: the path of the deepest common
inclusive ancestor of the two nodes, i.e. `range.commonAncestorContainer`. -/
def commonStem : List Nat → List Nat → List Nat
  | a :: as, b :: bs => if a = b then a :: commonStem as bs else []
  | _, _ => []

/-- `range.intersectsNode(node)` per WHATWG: with `parent` the node's parent
and `i` its index, true iff `(parent, i)` is before the range's end and
`(parent, i + 1)` is after the range's start; a parentless node (the document
root, path `[]`) always intersects.  Note `key (parent, i) = path` itself. -/
def intersectsNodeB (r : DRange) (p : List Nat) : Bool :=
  match p with
  | [] => true
  | _ :: _ => keyLt p (endKey r) && keyLt (startKey r) (incLast p)

/-- `tag.toLowerCase()`: character-wise lower-casing (a kernel-computable
implementation of JS `toLowerCase` for tag names). -/
def lowerTag (s : String) : String := ⟨s.data.map Char.toLower⟩

/-- `immediateParent.closest(tag)` truthiness: some inclusive ancestor of the
node at path `q` is an element with the given (canonical, lower-case) tag. -/
def closestB (doc : DNode) (q : List Nat) (tg : String) : Bool :=
  q.inits.any (fun anc =>
    match nodeAt doc anc with
    | some (.elem _ t _) => t == tg
    | _ => false)

/-- The tree-walker filter of `getTextNodes`, negated: the text leaf at path
`p` is rejected when its `parentElement` exists and some entry of
`disallowedAncestorTags` (lower-cased, as in the source) matches a
`closest` ancestor. -/
def leafExcludedB (doc : DNode) (p : List Nat) (tags : List String) : Bool :=
  match p with
  | [] => false
  | _ :: _ => tags.any (fun tg => closestB doc (p.dropLast) (lowerTag tg))

/-- `getTextNodes(root, options)`: all text nodes under `root`, in document
order, except those rejected by the `disallowedAncestorTags` filter.  When
`root` is itself a text node the walker's initial `currentNode` is returned
directly, bypassing the filter (the source's `walker.currentNode.nodeType ===
Node.TEXT_NODE` branch).  The `options` object with an absent or empty
`disallowedAncestorTags` is the empty list.  Results are paths in `doc`. -/
def getTextNodes (doc : DNode) (rootPath : List Nat) (tags : List String) :
    List (List Nat) :=
  match nodeAt doc rootPath with
  | some (.text _ _) => [rootPath]
  | some (.elem i t cs) =>
      ((leafPathsRel (.elem i t cs)).map (rootPath ++ ·)).filter
        (fun p => !leafExcludedB doc p tags)
  | none => []

/-- `getTextNodesInRange(range, options)`: `getTextNodes` rooted at
`range.commonAncestorContainer`, filtered by `range.intersectsNode`. -/
def getTextNodesInRange (doc : DNode) (r : DRange) (tags : List String) :
    List (List Nat) :=
  (getTextNodes doc (commonStem r.startPath r.endPath) tags).filter
    (intersectsNodeB r)

/-- Host (DOM) exceptions surfaced by the operations the source calls. -/
inductive DomErr : Type where
  /-- `IndexSizeError`: `setStart`/`setEnd` with an offset above the node's
  length. -/
  | indexSize
  /-- `TypeError`: `insertBefore(null, …)`, from `newParent.firstChild!` when
  the wrapper has no child. -/
  | typeError
  /-- `HierarchyRequestError`: inserting into a range whose start container
  is a parentless text node. -/
  | hierarchyRequest
deriving Repr, DecidableEq

/-- The value returned by `wrapTextNode`: either the inert `() => {}` no-op
(for non-text targets), or the `unwrapTextNode` closure, which captures the
wrapper node (`newParent`) — here, its id. -/
inductive UndoCap : Type where
  | inert
  | cap (wid : Nat)
deriving Repr, DecidableEq

/-- The selected offsets of the local range built by `wrapTextNode` on a text
node of length `n`: `selectNodeContents` gives `(0, n)`; an explicit
`startOffset` runs `setStart` (IndexSizeError above `n`; it cannot collapse
here because the current end is `n`); an explicit `endOffset` runs `setEnd`
(IndexSizeError above `n`; per WHATWG, an end before the current start drags
the start along, collapsing the range at `endOffset`). -/
def effRange (n : Nat) (a? b? : Option Nat) : Except DomErr (Nat × Nat) :=
  match a? with
  | none =>
    match b? with
    | none => .ok (0, n)
    | some b =>
      if n < b then .error .indexSize
      else .ok (0, b)
  | some a =>
    if n < a then .error .indexSize
    else
      match b? with
      | none => .ok (a, n)
      | some b =>
        if n < b then .error .indexSize
        else if b < a then .ok (b, b)
        else .ok (a, b)

/-- The three siblings `surroundContents` leaves in place of the wrapped text
node with data `s` and selected offsets `[st, en)` (`st ≤ en ≤ |s|`):

* the original text node, its data truncated by `extract` to `s.take st` and
  then split at `st`;
* the wrapper clone (fresh id `fresh`; a clone's own children are removed by
  `surroundContents` step 4, so only its tag survives), holding the extracted
  slice as a cloned text node — or childless when the range was collapsed;
* the text node created by the split, holding the data after `en`.

The flanking text nodes exist even when their data is empty. -/
def wrapGroup (tid : Nat) (s : List Char) (wtag : String) (st en : Nat)
    (fresh : Nat) : List DNode :=
  [.text tid (s.take st),
   .elem fresh wtag
     (if st < en then [.text (fresh + 1) ((s.take en).drop st)] else []),
   .text (fresh + 2) (s.drop en)]

/-- Replace the (first) child with the given id by a list of new siblings. -/
def replaceById : List DNode → Nat → List DNode → List DNode
  | [], _, _ => []
  | c :: cs, tid, group =>
    if topId c = tid then group ++ cs else c :: replaceById cs tid group

/-- Ids of the members of a children list. -/
def topIds (children : List DNode) : List Nat := children.map topId

/-- `wrapTextNode(node, wrapperElement, options)`, modelled on the children
list of the target's parent; `tid` is the target reference.  Non-text targets
are ignored (`return () => {}`).  For a text target, the local range is
selected via `effRange` and `surroundContents` splices `wrapGroup` in place
of the target.  Returns the new children and the unwrap closure. -/
def wrapTextNode (children : List DNode) (tid : Nat) (wtag : String)
    (a? b? : Option Nat) (fresh : Nat) :
    Except DomErr (List DNode × UndoCap) :=
  match children.find? (fun c => topId c = tid) with
  | some (.elem _ _ _) => .ok (children, .inert)
  | some (.text _ s) => do
    let (st, en) ← effRange s.length a? b?
    .ok (replaceById children tid (wrapGroup tid s wtag st en fresh),
         .cap fresh)
  | none => .ok (children, .inert)

/-- The body of the `unwrapTextNode` closure, on the children list of the
parent the wrapper was inserted under.  If the wrapper (id `wid`) is absent,
`newParent.parentNode` is `null` and nothing happens.  Otherwise
`parent.insertBefore(newParent.firstChild!, newParent)` moves the wrapper's
first child in front of it — throwing a `TypeError` when `firstChild` is
`null` — and `parent.removeChild(newParent)` drops the wrapper (together with
any children remaining inside it). -/
def unwrapById (wid : Nat) : List DNode → Except DomErr (List DNode)
  | [] => .ok []
  | c :: cs =>
    if topId c = wid then
      match c with
      | .elem _ _ [] => .error .typeError
      | .elem _ _ (c0 :: _) => .ok (c0 :: cs)
      | .text _ _ => .error .typeError
    else do
      let rest ← unwrapById wid cs
      .ok (c :: rest)

/-- Invoke an unwrap closure on the current children of the captured parent. -/
def applyUndo : UndoCap → List DNode → Except DomErr (List DNode)
  | .inert, children => .ok children
  | .cap wid, children => unwrapById wid children

mutual

/-- Serialization of a subtree (`innerHTML`-style, attributes not modelled). -/
def serialize : DNode → List Char
  | .text _ d => d
  | .elem _ tg cs =>
    '<' :: tg.data ++ '>' :: serializeList cs ++ '<' :: '/' :: tg.data ++ ['>']

/-- Serialization of a list of siblings. -/
def serializeList : List DNode → List Char
  | [] => []
  | c :: cs => serialize c ++ serializeList cs

end

mutual

/-- Splice `group` in place of every text node carrying id `tid` (with the
unique ids of a real DOM: the one node the reference denotes), anywhere in
the document.  The root itself is never replaced (it has no parent to splice
into). -/
def replaceDoc (tid : Nat) (group : List DNode) : DNode → DNode
  | .text i d => .text i d
  | .elem i t cs => .elem i t (replaceDocList tid group cs)

/-- The siblings a single child contributes after the replacement: a text
child with the id becomes the splice, any other child is kept (rewritten
inside). -/
def replaceDocSplice (tid : Nat) (group : List DNode) : DNode → List DNode
  | .text i d => if i = tid then group else [.text i d]
  | .elem i t cs => [.elem i t (replaceDocList tid group cs)]

/-- `replaceDoc` over a list of siblings. -/
def replaceDocList (tid : Nat) (group : List DNode) : List DNode → List DNode
  | [] => []
  | c :: cs => replaceDocSplice tid group c ++ replaceDocList tid group cs

end

/-- `wrapTextNode`, lifted to a whole document: the target reference is the
node with id `tid`.  The returned `Nat` is the next unused fresh id (a wrap
materializes up to three new nodes).  A parentless (root) text target makes
`insert a node into a range` throw `HierarchyRequestError` (the data loss of
the preceding `extract` is not modelled; no claim exercises a root target). -/
def wrapTextNodeDoc (doc : DNode) (tid : Nat) (wtag : String)
    (a? b? : Option Nat) (fresh : Nat) :
    Except DomErr (DNode × UndoCap × Nat) :=
  match findNode tid doc with
  | some (.text _ s) => do
    let (st, en) ← effRange s.length a? b?
    if topId doc = tid then .error .hierarchyRequest
    else
      .ok (replaceDoc tid (wrapGroup tid s wtag st en fresh) doc,
           .cap fresh, fresh + 3)
  | _ => .ok (doc, .inert, fresh)

/-- The `forEach` loop of `wrapRangeTextNodes` over the materialized list of
text-node references (ids): a node is skipped entirely when `shouldWrapNode`
is supplied and returns `false` for it; otherwise it is wrapped, with
`startOffset`/`endOffset` passed exactly when the node *is* (`===`) the
range's start/end container, and the unwrap closure is collected.  A host
exception aborts the whole call. -/
def wrapEachDoc (wtag : String) (pred? : Option (Nat → Bool))
    (sid? eid? : Option Nat) (so eo : Nat) :
    List Nat → DNode → Nat → Except DomErr (DNode × List UndoCap × Nat)
  | [], doc, fresh => .ok (doc, [], fresh)
  | tid :: rest, doc, fresh =>
    if (match pred? with | some f => !f tid | none => false) then
      wrapEachDoc wtag pred? sid? eid? so eo rest doc fresh
    else do
      let a? := if sid? = some tid then some so else none
      let b? := if eid? = some tid then some eo else none
      let (doc', cap, fresh') ← wrapTextNodeDoc doc tid wtag a? b? fresh
      let (doc'', caps, fresh'') ←
        wrapEachDoc wtag pred? sid? eid? so eo rest doc' fresh'
      .ok (doc'', cap :: caps, fresh'')

/-- The ids (JS references) of the text nodes located by
`getTextNodesInRange`. -/
def locatedIds (doc : DNode) (r : DRange) (tags : List String) : List Nat :=
  (getTextNodesInRange doc r tags).filterMap
    (fun p => (nodeAt doc p).map topId)

/-- `wrapRangeTextNodes(range, wrapper, options)`: locate the text nodes in
the range, then wrap each non-skipped one.  `pred?` is
`options.shouldWrapNode`; range container identities are resolved to ids
(node references are stable under the loop's mutations). -/
def wrapRangeTextNodes (doc : DNode) (r : DRange) (wtag : String)
    (tags : List String) (pred? : Option (Nat → Bool)) (fresh : Nat) :
    Except DomErr (DNode × List UndoCap × Nat) :=
  wrapEachDoc wtag pred?
    ((nodeAt doc r.startPath).map topId) ((nodeAt doc r.endPath).map topId)
    r.startOff r.endOff
    (locatedIds doc r tags) doc fresh

/-- A JS `RegExp` restricted to literal-substring patterns: `source` is the
literal, `global` the `g` flag, `lastIndex` the mutable match cursor.  This
is a faithful instance of the host regex semantics `getRangesOfText` calls
into; full regex syntax is out of scope (and out of the spec's scope). -/
structure JsRegExp : Type where
  source : List Char
  global : Bool
  lastIndex : Nat
deriving Repr, DecidableEq

/-- The smallest index `i ≥ start` at which `pat` occurs in `s`, if any. -/
def findFrom (s pat : List Char) (start : Nat) : Option Nat :=
  (List.range (s.length + 1)).find?
    (fun i => start ≤ i && pat.isPrefixOf (s.drop i))

/-- `regex.exec(str)` for a literal pattern: a non-global regex searches from
index 0 and leaves the regex untouched; a global regex searches from
`lastIndex`, failing (and resetting `lastIndex` to 0) when `lastIndex`
exceeds the string length or no occurrence remains, and otherwise advancing
`lastIndex` past the match.  Returns the match's `(index, length)` and the
updated regex. -/
def JsRegExp.exec (re : JsRegExp) (s : List Char) :
    Option (Nat × Nat) × JsRegExp :=
  if re.global then
    if s.length < re.lastIndex then (none, { re with lastIndex := 0 })
    else
      match findFrom s re.source re.lastIndex with
      | some i =>
        (some (i, re.source.length), { re with lastIndex := i + re.source.length })
      | none => (none, { re with lastIndex := 0 })
  else
    match findFrom s re.source 0 with
    | some i => (some (i, re.source.length), re)
    | none => (none, re)

/-- The data of the text node at a path (its `textContent`). -/
def textDataAt (doc : DNode) (p : List Nat) : List Char :=
  match nodeAt doc p with
  | some (.text _ d) => d
  | _ => []

/-- The `forEach` loop of `getRangesOfText`: one `regex.exec` probe per text
node (the same regex object throughout, so a global regex carries its
`lastIndex` from one probe to the next); a match `(i, len)` yields the range
`(node, i, node, i + len)`. -/
def getRangesOfTextGo (doc : DNode) (re : JsRegExp) :
    List (List Nat) → List DRange
  | [] => []
  | p :: rest =>
    match re.exec (textDataAt doc p) with
    | (none, re') => getRangesOfTextGo doc re' rest
    | (some (i, len), re') => ⟨p, i, p, i + len⟩ :: getRangesOfTextGo doc re' rest

/-- `getRangesOfText(root, regex)`: probe every text node under `root`
(`getTextNodes` with no options) against the regex, in document order. -/
def getRangesOfText (doc : DNode) (rootPath : List Nat) (re : JsRegExp) :
    List DRange :=
  getRangesOfTextGo doc re (getTextNodes doc rootPath [])

/-- Modelled from the spec's words for C3 ("independently probe its own
content against `pattern`, taking only the first match location within that
leaf's content"): every leaf is probed from index 0, stateless. -/
def independentFirstMatchSpans (doc : DNode) (rootPath : List Nat)
    (re : JsRegExp) : List DRange :=
  (getTextNodes doc rootPath []).filterMap (fun p =>
    (findFrom (textDataAt doc p) re.source 0).map
      (fun i => ⟨p, i, p, i + re.source.length⟩))

/-! ### Order lemmas for boundary-point keys -/

theorem keyLt_of_take_lt : ∀ (m : Nat) (k1 k2 : List Nat) (x y : Nat),
    k1.take m = k2.take m → k1[m]? = some x → k2[m]? = some y → x < y →
    keyLt k1 k2 = true
  | 0, _ :: _, _ :: _, x, y, _, h1, h2, hxy => by
      simp only [List.getElem?_cons_zero, Option.some.injEq] at h1 h2
      subst h1; subst h2
      simp [keyLt, hxy]
  | m + 1, a :: as, b :: bs, x, y, ht, h1, h2, hxy => by
      simp only [List.take_succ_cons, List.cons.injEq] at ht
      simp only [List.getElem?_cons_succ] at h1 h2
      have := keyLt_of_take_lt m as bs x y ht.2 h1 h2 hxy
      simp [keyLt, ht.1, this]

theorem keyLt_eq_false_of_take_lt : ∀ (m : Nat) (k1 k2 : List Nat) (x y : Nat),
    k1.take m = k2.take m → k1[m]? = some x → k2[m]? = some y → y < x →
    keyLt k1 k2 = false
  | 0, _ :: _, _ :: _, x, y, _, h1, h2, hxy => by
      simp only [List.getElem?_cons_zero, Option.some.injEq] at h1 h2
      subst h1; subst h2
      simp [keyLt]
      omega
  | m + 1, a :: as, b :: bs, x, y, ht, h1, h2, hxy => by
      simp only [List.take_succ_cons, List.cons.injEq] at ht
      simp only [List.getElem?_cons_succ] at h1 h2
      have := keyLt_eq_false_of_take_lt m as bs x y ht.2 h1 h2 hxy
      simp [keyLt, ht.1, this]

theorem keyLt_append_of_ne_nil : ∀ (l t : List Nat), t ≠ [] →
    keyLt l (l ++ t) = true
  | [], t, ht => by cases t with
      | nil => exact absurd rfl ht
      | cons a as => simp [keyLt]
  | a :: as, t, ht => by
      have := keyLt_append_of_ne_nil as t ht
      simp [keyLt, this]

theorem keyLt_eq_false_of_append : ∀ (l t : List Nat), keyLt (l ++ t) l = false
  | [], [] => by simp [keyLt]
  | [], a :: as => by simp [keyLt]
  | a :: as, t => by
      have := keyLt_eq_false_of_append as t
      simp [keyLt, this]

theorem keyLt_of_strict_front {l1 l2 : List Nat} (h : l1 <+: l2)
    (hne : l1 ≠ l2) : keyLt l1 l2 = true := by
  obtain ⟨t, rfl⟩ := h
  have ht : t ≠ [] := by
    intro h; subst h; simp at hne
  exact keyLt_append_of_ne_nil l1 t ht

theorem keyLt_eq_false_of_front {l1 l2 : List Nat} (h : l2 <+: l1) :
    keyLt l1 l2 = false := by
  obtain ⟨t, rfl⟩ := h
  exact keyLt_eq_false_of_append l2 t

/-! ### Structure lemmas for `nodeAt` and paths -/

theorem nodeAt_append : ∀ (doc : DNode) (q r : List Nat),
    nodeAt doc (q ++ r) = (nodeAt doc q).bind (fun n => nodeAt n r)
  | doc, [], r => by simp [nodeAt]
  | .text i d, j :: q, r => by simp [nodeAt]
  | .elem i t cs, j :: q, r => by
      simp only [List.cons_append, nodeAt]
      cases h : cs[j]? with
      | none => simp
      | some c => simpa using nodeAt_append c q r

theorem nodeAt_text_no_desc {doc : DNode} {p r : List Nat} {i : Nat}
    {d : List Char} (h : nodeAt doc p = some (.text i d))
    (h2 : (nodeAt doc (p ++ r)).isSome = true) : r = [] := by
  rw [nodeAt_append, h] at h2
  cases r with
  | nil => rfl
  | cons a as => simp [nodeAt] at h2

theorem nodeAt_isSome_of_prefix {doc : DNode} {q p : List Nat} (h : q <+: p)
    (hp : (nodeAt doc p).isSome = true) : (nodeAt doc q).isSome = true := by
  obtain ⟨t, rfl⟩ := h
  rw [nodeAt_append] at hp
  cases hq : nodeAt doc q with
  | none => rw [hq] at hp; simp at hp
  | some n => simp

/-- Induction over `DNode` with a pointwise hypothesis for the children of an
element (usable in place of the nested-inductive recursor). -/
theorem DNode.rec2 (P : DNode → Prop) (ht : ∀ i d, P (.text i d))
    (he : ∀ i t cs, (∀ c ∈ cs, P c) → P (.elem i t cs)) : ∀ n, P n
  | .text i d => ht i d
  | .elem i t cs => he i t cs (fun c hc =>
      have : sizeOf c < sizeOf (DNode.elem i t cs) := by
        have := List.sizeOf_lt_of_mem hc
        simp only [DNode.elem.sizeOf_spec]
        omega
      DNode.rec2 P ht he c)
termination_by n => sizeOf n

theorem length_incLast : ∀ (p : List Nat), (incLast p).length = p.length
  | [] => rfl
  | [_] => rfl
  | i :: j :: rest => by
      have := length_incLast (j :: rest)
      simp only [incLast, List.length_cons] at this ⊢
      omega

theorem getElem?_incLast_of_lt : ∀ (p : List Nat) (m : Nat),
    m + 1 < p.length → (incLast p)[m]? = p[m]?
  | [], m, h => by simp at h
  | [_], m, h => by simp at h
  | i :: j :: rest, 0, h => by simp [incLast]
  | i :: j :: rest, m + 1, h => by
      have := getElem?_incLast_of_lt (j :: rest) m (by simpa using h)
      simpa [incLast] using this

theorem getElem?_incLast_last : ∀ (p : List Nat) (m x : Nat),
    m + 1 = p.length → p[m]? = some x → (incLast p)[m]? = some (x + 1)
  | [], m, x, h, _ => by simp at h
  | [a], 0, x, h, hx => by
      simp only [List.getElem?_cons_zero, Option.some.injEq] at hx
      simp [incLast, hx]
  | i :: j :: rest, m + 1, x, h, hx => by
      have := getElem?_incLast_last (j :: rest) m x (by simpa using h)
        (by simpa using hx)
      simpa [incLast] using this

theorem take_incLast : ∀ (p : List Nat) (m : Nat), m < p.length →
    (incLast p).take m = p.take m
  | [], m, h => by simp at h
  | [_], 0, _ => by simp
  | [a], m + 1, h => by simp at h
  | i :: j :: rest, 0, _ => by simp
  | i :: j :: rest, m + 1, h => by
      have := take_incLast (j :: rest) m (by simpa using h)
      simp only [incLast, List.take_succ_cons] at this ⊢
      rw [this]

theorem getElem?_of_leadsInto {a b : List Nat} (h : a <+: b) {m x : Nat}
    (hm : a[m]? = some x) : b[m]? = some x := by
  obtain ⟨t, rfl⟩ := h
  have hlt : m < a.length := (List.getElem?_eq_some.mp hm).1
  rw [List.getElem?_append_left hlt]
  exact hm

theorem take_eq_of_leadsInto {a b : List Nat} (h : a <+: b) {m : Nat}
    (hm : m ≤ a.length) : b.take m = a.take m := by
  have := List.prefix_iff_eq_take.mp h
  rw [this, List.take_take, Nat.min_eq_left hm]

/-- Two lists are comparable by prefix, or diverge at a first index. -/
theorem list_compare_cases : ∀ (a b : List Nat),
    a <+: b ∨ b <+: a ∨
    ∃ m x y, a.take m = b.take m ∧ a[m]? = some x ∧ b[m]? = some y ∧ x ≠ y
  | [], b => Or.inl (List.nil_prefix)
  | a :: as, [] => Or.inr (Or.inl (List.nil_prefix))
  | a :: as, b :: bs => by
      by_cases hab : a = b
      · subst hab
        rcases list_compare_cases as bs with h | h | ⟨m, x, y, ht, h1, h2, hxy⟩
        · exact Or.inl (List.cons_prefix_cons.mpr ⟨rfl, h⟩)
        · exact Or.inr (Or.inl (List.cons_prefix_cons.mpr ⟨rfl, h⟩))
        · exact Or.inr (Or.inr ⟨m + 1, x, y, by simpa [List.take_succ_cons]
            using ht, by simpa using h1, by simpa using h2, hxy⟩)
      · exact Or.inr (Or.inr ⟨0, a, b, by simp, by simp, by simp, hab⟩)

theorem commonStem_prefix_left : ∀ (a b : List Nat), commonStem a b <+: a
  | [], _ => by simp [commonStem]
  | _ :: _, [] => by simp [commonStem]
  | a :: as, b :: bs => by
      by_cases h : a = b
      · subst h
        simp only [commonStem, if_pos rfl]
        exact List.cons_prefix_cons.mpr ⟨rfl, commonStem_prefix_left as bs⟩
      · simp [commonStem, h]

theorem commonStem_prefix_right : ∀ (a b : List Nat), commonStem a b <+: b
  | [], _ => by simp [commonStem]
  | _ :: _, [] => by simp [commonStem]
  | a :: as, b :: bs => by
      by_cases h : a = b
      · subst h
        simp only [commonStem, if_pos rfl]
        exact List.cons_prefix_cons.mpr ⟨rfl, commonStem_prefix_right as bs⟩
      · simp [commonStem, h]

/-! ### Characterization of the pre-order text-leaf enumeration -/

theorem mem_leafPathsRelList : ∀ (cs : List DNode) (i : Nat) (q : List Nat),
    q ∈ leafPathsRelList cs i ↔
      ∃ j c rest, cs[j]? = some c ∧ q = (i + j) :: rest ∧
        rest ∈ leafPathsRel c
  | [], i, q => by simp [leafPathsRelList]
  | c0 :: cs, i, q => by
      rw [leafPathsRelList]
      simp only [List.mem_append, List.mem_map,
        mem_leafPathsRelList cs (i + 1) q]
      constructor
      · rintro (⟨rest, hrest, rfl⟩ | ⟨j, c, rest, hj, rfl, hrest⟩)
        · exact ⟨0, c0, rest, by simp, by simp, hrest⟩
        · refine ⟨j + 1, c, rest, by simpa using hj, ?_, hrest⟩
          have : i + 1 + j = i + (j + 1) := by omega
          rw [this]
      · rintro ⟨j, c, rest, hj, rfl, hrest⟩
        cases j with
        | zero =>
          simp only [List.getElem?_cons_zero, Option.some.injEq] at hj
          subst hj
          exact Or.inl ⟨rest, hrest, by simp⟩
        | succ j =>
          refine Or.inr ⟨j, c, rest, by simpa using hj, ?_, hrest⟩
          have : i + (j + 1) = i + 1 + j := by omega
          rw [this]

theorem mem_leafPathsRel : ∀ (n : DNode) (p : List Nat),
    p ∈ leafPathsRel n ↔ ∃ i d, nodeAt n p = some (.text i d) := by
  intro n
  induction n using DNode.rec2 with
  | ht i d =>
    intro p
    cases p with
    | nil => simp [leafPathsRel, nodeAt]
    | cons a as => simp [leafPathsRel, nodeAt]
  | he i t cs ih =>
    intro p
    rw [leafPathsRel, mem_leafPathsRelList]
    cases p with
    | nil => simp [nodeAt]
    | cons j rest =>
      simp only [nodeAt]
      constructor
      · rintro ⟨j', c, rest', hj, hq, hrest⟩
        simp only [List.cons.injEq] at hq
        obtain ⟨hj', rfl⟩ := hq
        have : j = j' := by omega
        subst this
        rw [hj]
        exact (ih c (List.getElem?_mem hj) rest).mp hrest
      · intro h
        cases hj : cs[j]? with
        | none => rw [hj] at h; simp at h
        | some c =>
          rw [hj] at h
          exact ⟨j, c, rest, hj, by simp, (ih c (List.getElem?_mem hj) rest).mpr h⟩

theorem block_sublist_leafPathsRelList : ∀ (cs : List DNode) (i j : Nat)
    (c : DNode), cs[j]? = some c →
    List.Sublist ((leafPathsRel c).map ((i + j) :: ·)) (leafPathsRelList cs i)
  | [], i, j, c, hj => by simp at hj
  | c0 :: cs, i, 0, c, hj => by
      simp only [List.getElem?_cons_zero, Option.some.injEq] at hj
      subst hj
      rw [leafPathsRelList]
      simp only [Nat.add_zero]
      exact List.sublist_append_left _ _
  | c0 :: cs, i, j + 1, c, hj => by
      have := block_sublist_leafPathsRelList cs (i + 1) j c (by simpa using hj)
      rw [leafPathsRelList]
      have harith : i + (j + 1) = (i + 1) + j := by omega
      rw [harith]
      exact this.trans (List.sublist_append_right _ _)

theorem map_leafPathsRel_sublist : ∀ (q : List Nat) (doc m : DNode),
    nodeAt doc q = some m →
    List.Sublist ((leafPathsRel m).map (q ++ ·)) (leafPathsRel doc)
  | [], doc, m, h => by
      simp only [nodeAt, Option.some.injEq] at h
      subst h
      simp
  | j :: q, .text i d, m, h => by simp [nodeAt] at h
  | j :: q, .elem i t cs, m, h => by
      simp only [nodeAt] at h
      cases hj : cs[j]? with
      | none => rw [hj] at h; exact absurd h (by simp)
      | some c =>
        rw [hj] at h
        have ih := map_leafPathsRel_sublist q c m h
        have hb := block_sublist_leafPathsRelList cs 0 j c hj
        rw [leafPathsRel]
        have := (ih.map (j :: ·)).trans (by simpa using hb)
        simpa [Function.comp] using this

theorem head_ge_of_mem_leafPathsRelList {cs : List DNode} {i : Nat}
    {q : List Nat} (h : q ∈ leafPathsRelList cs i) :
    ∃ k rest, q = k :: rest ∧ i ≤ k := by
  obtain ⟨j, c, rest, _, rfl, _⟩ := (mem_leafPathsRelList cs i q).mp h
  exact ⟨i + j, rest, rfl, by omega⟩

theorem nodup_leafPathsRelList : ∀ (cs : List DNode) (i : Nat),
    (∀ c ∈ cs, (leafPathsRel c).Nodup) → (leafPathsRelList cs i).Nodup
  | [], i, _ => by simp [leafPathsRelList]
  | c0 :: cs, i, h => by
      rw [leafPathsRelList]
      refine List.Nodup.append ?_ (nodup_leafPathsRelList cs (i + 1)
        (fun c hc => h c (List.mem_cons_of_mem c0 hc))) ?_
      · exact (h c0 (List.mem_cons_self c0 cs)).map
          (fun p q hpq => by simpa using hpq)
      · intro q hq1 hq2
        obtain ⟨rest, hrest, rfl⟩ := List.mem_map.mp hq1
        obtain ⟨k, rest', heq, hk⟩ := head_ge_of_mem_leafPathsRelList hq2
        simp only [List.cons.injEq] at heq
        omega

theorem nodup_leafPathsRel (n : DNode) : (leafPathsRel n).Nodup := by
  induction n using DNode.rec2 with
  | ht i d => simp [leafPathsRel]
  | he i t cs ih => exact nodup_leafPathsRelList cs 0 ih

/-! ### A text node outside the common-ancestor subtree never intersects -/

theorem not_intersects_of_outside (doc : DNode) (r : DRange) (p : List Nat)
    (hsp : (nodeAt doc r.startPath).isSome = true)
    (_hep : (nodeAt doc r.endPath).isSome = true)
    (hp : ∃ i d, nodeAt doc p = some (.text i d))
    (hout : ¬ commonStem r.startPath r.endPath <+: p) :
    intersectsNodeB r p = false := by
  obtain ⟨ti, td, hpt⟩ := hp
  have hcs : commonStem r.startPath r.endPath <+: r.startPath :=
    commonStem_prefix_left _ _
  have hce : commonStem r.startPath r.endPath <+: r.endPath :=
    commonStem_prefix_right _ _
  rcases list_compare_cases p (commonStem r.startPath r.endPath) with
    h | h | ⟨m, x, y, ht, h1, h2, hxy⟩
  · -- `p` is a prefix of the common stem; being a text node it then has no
    -- strict descendants, forcing `startPath = p`, contradicting `hout`.
    have hps : p <+: r.startPath := h.trans hcs
    obtain ⟨t, hteq⟩ := hps
    have ht0 : t = [] := nodeAt_text_no_desc hpt (by rw [hteq]; exact hsp)
    subst ht0
    rw [List.append_nil] at hteq
    have : commonStem r.startPath r.endPath <+: p := by rw [hteq]; exact hcs
    exact absurd this hout
  · exact absurd h hout
  · -- `p` diverges from the common stem at index `m`.
    have hpne : p ≠ [] := by
      intro hnil
      rw [hnil] at h1
      simp at h1
    have hme : m < (commonStem r.startPath r.endPath).length :=
      (List.getElem?_eq_some.mp h2).1
    have hmp : m < p.length := (List.getElem?_eq_some.mp h1).1
    have hsk : (startKey r)[m]? = some y := by
      simp only [startKey]
      exact getElem?_of_leadsInto (List.prefix_append _ _)
        (getElem?_of_leadsInto hcs h2)
    have hek : (endKey r)[m]? = some y := by
      simp only [endKey]
      exact getElem?_of_leadsInto (List.prefix_append _ _)
        (getElem?_of_leadsInto hce h2)
    have hskp : commonStem r.startPath r.endPath <+: startKey r := by
      simp only [startKey]
      exact hcs.trans (List.prefix_append _ _)
    have hekp : commonStem r.startPath r.endPath <+: endKey r := by
      simp only [endKey]
      exact hce.trans (List.prefix_append _ _)
    have hskt : (startKey r).take m = p.take m := by
      rw [take_eq_of_leadsInto hskp (Nat.le_of_lt hme), ht]
    have hekt : (endKey r).take m = p.take m := by
      rw [take_eq_of_leadsInto hekp (Nat.le_of_lt hme), ht]
    obtain ⟨ph, pt, rfl⟩ : ∃ ph pt, p = ph :: pt := by
      cases p with
      | nil => exact absurd rfl hpne
      | cons a l => exact ⟨a, l, rfl⟩
    have hunfold : intersectsNodeB r (ph :: pt) =
        (keyLt (ph :: pt) (endKey r) && keyLt (startKey r)
          (incLast (ph :: pt))) := rfl
    rcases Nat.lt_or_ge x y with hlt | hge
    · -- start/end keys carry `y > x` at index `m`: the point just after the
      -- node is still before the range's start.
      have hfalse : keyLt (startKey r) (incLast (ph :: pt)) = false := by
        rcases Nat.lt_or_ge (m + 1) (ph :: pt).length with hm1 | hm1
        · exact keyLt_eq_false_of_take_lt m (startKey r) (incLast (ph :: pt))
            y x (by rw [hskt, take_incLast _ m hmp])
            hsk (by rw [getElem?_incLast_of_lt _ m hm1]; exact h1) hlt
        · have hm1' : m + 1 = (ph :: pt).length := by omega
          have hil : (incLast (ph :: pt))[m]? = some (x + 1) :=
            getElem?_incLast_last _ m x hm1' h1
          rcases Nat.lt_or_ge (x + 1) y with hxy1 | hxy1
          · exact keyLt_eq_false_of_take_lt m (startKey r)
              (incLast (ph :: pt)) y (x + 1)
              (by rw [hskt, take_incLast _ m hmp]) hsk hil hxy1
          · have hy : x + 1 = y := by omega
            -- `incLast p` is exactly `take (m+1)` of the start key: a prefix.
            have hlen : (incLast (ph :: pt)).length = m + 1 := by
              rw [length_incLast]; omega
            have htk : (incLast (ph :: pt)).take (m + 1) =
                (startKey r).take (m + 1) := by
              rw [List.take_succ, List.take_succ, hil, hsk,
                take_incLast _ m hmp, hskt, hy]
            have hpre : incLast (ph :: pt) <+: startKey r := by
              have := List.take_prefix (m + 1) (startKey r)
              rw [← htk, List.take_of_length_le (by omega)] at this
              exact this
            exact keyLt_eq_false_of_front hpre
      rw [hunfold, hfalse, Bool.and_false]
    · -- `y < x` (they differ): the node starts after the range's end.
      have hxgt : y < x := by omega
      have hfalse : keyLt (ph :: pt) (endKey r) = false :=
        keyLt_eq_false_of_take_lt m (ph :: pt) (endKey r) x y
          (by rw [hekt]) h1 hek hxgt
      rw [hunfold, hfalse, Bool.false_and]

/-- C1: `getTextNodesInRange` returns exactly the text leaves the range
intersects, modulo exclusion: every returned leaf satisfies
`range.intersectsNode`; every text leaf of the document that intersects and
is not under a disallowed ancestor tag appears in the result; the result has
no duplicates; and it is a sublist of the document's pre-order text-leaf
enumeration, i.e. in document order. -/
theorem c1_locate_exact (doc : DNode) (r : DRange) (tags : List String)
    (hs : (nodeAt doc r.startPath).isSome = true)
    (he : (nodeAt doc r.endPath).isSome = true) :
    (∀ p ∈ getTextNodesInRange doc r tags, intersectsNodeB r p = true) ∧
    (∀ p ∈ leafPathsRel doc, intersectsNodeB r p = true →
      leafExcludedB doc p tags = false → p ∈ getTextNodesInRange doc r tags) ∧
    (getTextNodesInRange doc r tags).Nodup ∧
    List.Sublist (getTextNodesInRange doc r tags) (leafPathsRel doc) := by
  have hcav : (nodeAt doc (commonStem r.startPath r.endPath)).isSome = true :=
    nodeAt_isSome_of_prefix (commonStem_prefix_left _ _) hs
  cases hnode : nodeAt doc (commonStem r.startPath r.endPath) with
  | none => rw [hnode] at hcav; simp at hcav
  | some n =>
    cases n with
    | text ti td =>
      have hres : getTextNodesInRange doc r tags =
          [commonStem r.startPath r.endPath].filter (intersectsNodeB r) := by
        simp [getTextNodesInRange, getTextNodes, hnode]
      have hsub : List.Sublist (getTextNodesInRange doc r tags)
          (leafPathsRel doc) := by
        rw [hres]
        exact (List.filter_sublist _).trans (List.singleton_sublist.mpr
          ((mem_leafPathsRel doc _).mpr ⟨ti, td, hnode⟩))
      refine ⟨?_, ?_, (nodup_leafPathsRel doc).sublist hsub, hsub⟩
      · intro p hp
        rw [hres] at hp
        exact (List.mem_filter.mp hp).2
      · intro p hp hint _
        by_cases hca : commonStem r.startPath r.endPath <+: p
        · obtain ⟨t, rfl⟩ := hca
          obtain ⟨i, d, hpd⟩ := (mem_leafPathsRel doc _).mp hp
          have ht0 : t = [] := nodeAt_text_no_desc hnode (by rw [hpd]; rfl)
          subst ht0
          rw [hres, List.append_nil]
          simp only [List.mem_filter, List.mem_singleton]
          rw [List.append_nil] at hint
          exact ⟨trivial, hint⟩
        · have := not_intersects_of_outside doc r p hs he
            ((mem_leafPathsRel doc _).mp hp) hca
          rw [hint] at this
          exact absurd this (by simp)
    | elem ei et ecs =>
      have hres : getTextNodesInRange doc r tags =
          (((leafPathsRel (.elem ei et ecs)).map
              (commonStem r.startPath r.endPath ++ ·)).filter
            (fun p => !leafExcludedB doc p tags)).filter
            (intersectsNodeB r) := by
        simp [getTextNodesInRange, getTextNodes, hnode]
      have hsub : List.Sublist (getTextNodesInRange doc r tags)
          (leafPathsRel doc) := by
        rw [hres]
        exact (List.filter_sublist _).trans ((List.filter_sublist _).trans
          (map_leafPathsRel_sublist _ doc _ hnode))
      refine ⟨?_, ?_, (nodup_leafPathsRel doc).sublist hsub, hsub⟩
      · intro p hp
        rw [hres] at hp
        exact (List.mem_filter.mp hp).2
      · intro p hp hint hexcl
        by_cases hca : commonStem r.startPath r.endPath <+: p
        · obtain ⟨t, rfl⟩ := hca
          obtain ⟨i, d, hpd⟩ := (mem_leafPathsRel doc _).mp hp
          rw [nodeAt_append, hnode, Option.some_bind] at hpd
          have htm : t ∈ leafPathsRel (.elem ei et ecs) :=
            (mem_leafPathsRel _ _).mpr ⟨i, d, hpd⟩
          rw [hres]
          simp only [List.mem_filter, List.mem_map]
          exact ⟨⟨⟨t, htm, rfl⟩, by rw [hexcl]; rfl⟩, hint⟩
        · have := not_intersects_of_outside doc r p hs he
            ((mem_leafPathsRel doc _).mp hp) hca
          rw [hint] at this
          exact absurd this (by simp)

/-- C1 witness: the general theorem applied to the concrete tree
`<p>text1<a><strong>text2</strong>text3</a></p>` and the span from the start
of `text1` to offset 1 of `text2`. -/
theorem c1_locate_exact_witness :
    ([0] : List Nat) ∈ getTextNodesInRange
      (.elem 0 "p" [.text 1 "text1".data,
        .elem 2 "a" [.elem 3 "strong" [.text 4 "text2".data],
          .text 5 "text3".data]])
      ⟨[0], 0, [1, 0, 0], 1⟩ [] :=
  (c1_locate_exact
    (.elem 0 "p" [.text 1 "text1".data,
      .elem 2 "a" [.elem 3 "strong" [.text 4 "text2".data],
        .text 5 "text3".data]])
    ⟨[0], 0, [1, 0, 0], 1⟩ [] (by decide) (by decide)).2.1
    [0] (by decide) (by decide) (by decide)

/-- The tree of the locate scenario:
`<p>text1<a><strong>text2</strong>text3</a></p>`, with `text1` at path `[0]`,
`text2` at `[1, 0, 0]` and `text3` at `[1, 1]`. -/
def docC7 : DNode :=
  .elem 0 "p" [.text 1 "text1".data,
    .elem 2 "a" [.elem 3 "strong" [.text 4 "text2".data],
      .text 5 "text3".data]]

/-- C7: on `<p>text1<a><strong>text2</strong>text3</a></p>`, the span from
the start of `text1` to offset 1 of `text2` locates exactly
`[text1, text2]`; the span collapsed at the boundary between `text1` and the
`<a>` element (start `(text1, 5)`, end `(<a>, 0)`) locates exactly
`[text1]` — while `text2`, merely touched, does not satisfy `intersects`. -/
theorem c7_locate_scenario :
    getTextNodesInRange docC7 ⟨[0], 0, [1, 0, 0], 1⟩ [] = [[0], [1, 0, 0]] ∧
    getTextNodesInRange docC7 ⟨[0], 5, [1], 0⟩ [] = [[0]] ∧
    intersectsNodeB ⟨[0], 5, [1], 0⟩ [1, 0, 0] = false := by decide

theorem leafExcludedB_true_of_ancestor {doc : DNode} {p q : List Nat}
    {tags : List String} {tg : String} {eid : Nat} {ecs : List DNode}
    (hp : p ≠ []) (htag : tg ∈ tags) (hq : q <+: p.dropLast)
    (hel : nodeAt doc q = some (.elem eid (lowerTag tg) ecs)) :
    leafExcludedB doc p tags = true := by
  obtain ⟨ph, pt, rfl⟩ : ∃ ph pt, p = ph :: pt := by
    cases p with
    | nil => exact absurd rfl hp
    | cons a l => exact ⟨a, l, rfl⟩
  rw [leafExcludedB]
  rw [List.any_eq_true]
  refine ⟨tg, htag, ?_⟩
  rw [closestB, List.any_eq_true]
  refine ⟨q, (List.mem_inits _ _).mpr hq, ?_⟩
  rw [hel]
  simp

/-- C10 (implicit): the exclusion check of `getTextNodes` /
`getTextNodesInRange` consults the leaf's entire ancestor chain in the whole
document: whenever *any* inclusive ancestor `q` of the leaf's parent — also
one strictly above the traversal root — is an element matching a disallowed
tag, the leaf is omitted from the result (for any leaf other than the
traversal root itself, which the source returns unfiltered). -/
theorem c10_exclusion_above_root (doc : DNode) (r : DRange)
    (tags : List String) (p q : List Nat) (tg : String) (eid : Nat)
    (et : String) (ecs : List DNode)
    (hne : p ≠ commonStem r.startPath r.endPath) (htag : tg ∈ tags)
    (hq : q <+: p.dropLast) (het : et = lowerTag tg)
    (hel : nodeAt doc q = some (.elem eid et ecs)) :
    p ∉ getTextNodesInRange doc r tags := by
  subst het
  intro hp
  cases hnode : nodeAt doc (commonStem r.startPath r.endPath) with
  | none => simp [getTextNodesInRange, getTextNodes, hnode] at hp
  | some n =>
    cases n with
    | text ti td =>
      simp only [getTextNodesInRange, getTextNodes, hnode, List.mem_filter,
        List.mem_singleton] at hp
      exact hne hp.1
    | elem ei et2 ecs2 =>
      simp only [getTextNodesInRange, getTextNodes, hnode, List.mem_filter,
        List.mem_map] at hp
      obtain ⟨⟨⟨t, htm, hteq⟩, hnex⟩, _⟩ := hp
      rw [leafPathsRel] at htm
      obtain ⟨k, rest, rfl, _⟩ := head_ge_of_mem_leafPathsRelList htm
      have hpne : p ≠ [] := by
        rw [← hteq]
        simp
      rw [leafExcludedB_true_of_ancestor hpne htag hq hel] at hnex
      simp at hnex

/-- C10 witness: in `<section><p>ab<b>cd</b></p></section>` with disallowed
tags `["section"]` and a range spanning the two text leaves (common ancestor
`<p>`, strictly below the only `<section>`), the leaf `ab` intersects the
range yet is omitted. -/
theorem c10_exclusion_above_root_witness :
    intersectsNodeB ⟨[0, 0], 0, [0, 1, 0], 1⟩ [0, 0] = true ∧
    ([0, 0] : List Nat) ∉ getTextNodesInRange
      (.elem 0 "section" [.elem 1 "p" [.text 2 "ab".data,
        .elem 3 "b" [.text 4 "cd".data]]])
      ⟨[0, 0], 0, [0, 1, 0], 1⟩ ["section"] :=
  ⟨by decide,
    c10_exclusion_above_root
      (.elem 0 "section" [.elem 1 "p" [.text 2 "ab".data,
        .elem 3 "b" [.text 4 "cd".data]]])
      ⟨[0, 0], 0, [0, 1, 0], 1⟩ ["section"] [0, 0] [] "section" 0 "section"
      [.elem 1 "p" [.text 2 "ab".data, .elem 3 "b" [.text 4 "cd".data]]]
      (by decide) (by decide) (by decide) (by decide) (by decide)⟩

/-! ### Lemmas on `wrapTextNode` and the unwrap closure -/

theorem find?_decomp : ∀ (pre : List DNode) (x : DNode) (post : List DNode)
    (tid : Nat), tid ∉ topIds pre → topId x = tid →
    (pre ++ x :: post).find? (fun c => topId c = tid) = some x
  | [], x, post, tid, _, hx => by
      simp [List.find?, hx]
  | c :: pre, x, post, tid, hpre, hx => by
      simp only [topIds, List.map_cons, List.mem_cons, not_or] at hpre
      have hc : decide (topId c = tid) = false :=
        decide_eq_false (fun h => hpre.1 h.symm)
      have ih := find?_decomp pre x post tid (by
        simp only [topIds]
        exact hpre.2) hx
      simp only [List.cons_append, List.find?, hc]
      exact ih

theorem replaceById_decomp : ∀ (pre : List DNode) (x : DNode)
    (post : List DNode) (tid : Nat) (group : List DNode),
    tid ∉ topIds pre → topId x = tid →
    replaceById (pre ++ x :: post) tid group = pre ++ group ++ post
  | [], x, post, tid, group, _, hx => by
      simp [replaceById, hx]
  | c :: pre, x, post, tid, group, hpre, hx => by
      simp only [topIds, List.map_cons, List.mem_cons, not_or] at hpre
      have hc : ¬ topId c = tid := fun h => hpre.1 h.symm
      have ih := replaceById_decomp pre x post tid group (by
        simp only [topIds]
        exact hpre.2) hx
      simp only [List.cons_append, replaceById, if_neg hc, List.append_eq, ih]

theorem unwrapById_not_found : ∀ (l : List DNode) (wid : Nat),
    wid ∉ topIds l → unwrapById wid l = .ok l
  | [], wid, _ => rfl
  | c :: cs, wid, h => by
      simp only [topIds, List.map_cons, List.mem_cons, not_or] at h
      have hc : ¬ topId c = wid := fun hh => h.1 hh.symm
      have ih := unwrapById_not_found cs wid (by
        simp only [topIds]
        exact h.2)
      simp only [unwrapById, if_neg hc, ih]
      rfl

theorem unwrapById_decomp : ∀ (pre : List DNode) (wid : Nat) (wtag : String)
    (w0 : DNode) (ws post : List DNode), wid ∉ topIds pre →
    unwrapById wid (pre ++ .elem wid wtag (w0 :: ws) :: post) =
      .ok (pre ++ w0 :: post)
  | [], wid, wtag, w0, ws, post, _ => by
      simp [unwrapById, topId]
  | c :: pre, wid, wtag, w0, ws, post, hpre => by
      simp only [topIds, List.map_cons, List.mem_cons, not_or] at hpre
      have hc : ¬ topId c = wid := fun hh => hpre.1 hh.symm
      have ih := unwrapById_decomp pre wid wtag w0 ws post (by
        simp only [topIds]
        exact hpre.2)
      simp only [List.cons_append, unwrapById, if_neg hc, List.append_eq, ih]
      rfl

theorem unwrapById_childless : ∀ (pre : List DNode) (wid : Nat)
    (wtag : String) (post : List DNode), wid ∉ topIds pre →
    unwrapById wid (pre ++ .elem wid wtag [] :: post) = .error .typeError
  | [], wid, wtag, post, _ => by
      simp [unwrapById, topId]
  | c :: pre, wid, wtag, post, hpre => by
      simp only [topIds, List.map_cons, List.mem_cons, not_or] at hpre
      have hc : ¬ topId c = wid := fun hh => hpre.1 hh.symm
      have ih := unwrapById_childless pre wid wtag post (by
        simp only [topIds]
        exact hpre.2)
      simp only [List.cons_append, unwrapById, if_neg hc, List.append_eq, ih]
      rfl

theorem serializeList_append : ∀ (l1 l2 : List DNode),
    serializeList (l1 ++ l2) = serializeList l1 ++ serializeList l2
  | [], l2 => by simp [serializeList]
  | c :: cs, l2 => by
      simp only [List.cons_append, serializeList, List.append_eq,
        serializeList_append cs l2, List.append_assoc]

theorem take_append_slice_drop (s : List Char) (a b : Nat) (hab : a ≤ b) :
    s.take a ++ ((s.take b).drop a ++ s.drop b) = s := by
  have h1 : (s.take b).take a = s.take a := by
    rw [List.take_take, Nat.min_eq_left hab]
  have h2 : (s.take b).take a ++ (s.take b).drop a = s.take b :=
    List.take_append_drop a (s.take b)
  rw [h1] at h2
  rw [← List.append_assoc, h2, List.take_append_drop]

theorem effRange_ordered (n a b : Nat) (hab : a ≤ b) (hbn : b ≤ n) :
    effRange n (some a) (some b) = .ok (a, b) := by
  rw [effRange]
  rw [if_neg (by omega), if_neg (by omega), if_neg (by omega)]

theorem effRange_collapse (n a b : Nat) (han : a ≤ n) (hba : b < a) :
    effRange n (some a) (some b) = .ok (b, b) := by
  rw [effRange]
  rw [if_neg (by omega), if_neg (by omega), if_pos hba]

theorem effRange_defaults (n : Nat) : effRange n none none = .ok (0, n) := rfl

theorem effRange_start_oob (n a : Nat) (b? : Option Nat) (han : n < a) :
    effRange n (some a) b? = .error .indexSize := by
  cases b? with
  | none => rw [effRange]; rw [if_pos han]
  | some b => rw [effRange]; rw [if_pos han]

theorem effRange_end_oob (n b : Nat) (hbn : n < b) :
    effRange n none (some b) = .error .indexSize := by
  rw [effRange]
  rw [if_pos hbn]

/-- `wrapTextNode` on a text leaf sitting between `pre` and `post`: whenever
the offset selection succeeds with `[st, en)`, the call splices in exactly
`wrapGroup` and hands back the unwrap closure on the wrapper. -/
theorem wrapTextNode_decomp (pre post : List DNode) (tid : Nat)
    (s : List Char) (wtag : String) (a? b? : Option Nat) (st en fresh : Nat)
    (hpre : tid ∉ topIds pre)
    (heff : effRange s.length a? b? = .ok (st, en)) :
    wrapTextNode (pre ++ .text tid s :: post) tid wtag a? b?
      fresh = .ok (pre ++ wrapGroup tid s wtag st en fresh ++ post,
        .cap fresh) := by
  rw [wrapTextNode, find?_decomp pre (.text tid s) post tid hpre rfl]
  simp only [heff]
  show Except.ok (replaceById (pre ++ DNode.text tid s :: post) tid
    (wrapGroup tid s wtag st en fresh), UndoCap.cap fresh) = _
  rw [replaceById_decomp pre (.text tid s) post tid _ hpre rfl]

/-- `wrapTextNode` on a text leaf when the offset selection throws: the
exception propagates and nothing is spliced. -/
theorem wrapTextNode_decomp_err (pre post : List DNode) (tid : Nat)
    (s : List Char) (wtag : String) (a? b? : Option Nat) (fresh : Nat)
    (e : DomErr) (hpre : tid ∉ topIds pre)
    (heff : effRange s.length a? b? = .error e) :
    wrapTextNode (pre ++ .text tid s :: post) tid wtag a? b? fresh =
      .error e := by
  rw [wrapTextNode, find?_decomp pre (.text tid s) post tid hpre rfl]
  simp only [heff]
  rfl

/-- C4 counterexample: on the leaf `"abc"`, the out-of-order pair
`(startOffset, endOffset) = (2, 1)` does *not* fail fast — the wrap succeeds,
silently collapsed at offset 1 with an empty wrapper; and the single-sided
out-of-range `startOffset = 5` is *not* clamped — it raises
`IndexSizeError`. -/
theorem c4_invalid_offsets_cex :
    wrapTextNode [.text 0 "abc".data] 0 "span" (some 2) (some 1) 10 =
      .ok ([.text 0 "a".data, .elem 10 "span" [], .text 12 "bc".data],
        .cap 10) ∧
    wrapTextNode [.text 0 "abc".data] 0 "span" (some 5) none 10 =
      .error .indexSize := ⟨rfl, rfl⟩

/-- C4 corrected: `wrapTextNode` with an out-of-order offset pair `b < a`
(both single-sidedly in range) silently collapses the selection at
`endOffset` — the host `setEnd` drags the start along — splicing in an empty
wrapper at offset `b` and raising no error; while a single-sided offset
beyond the content length raises `IndexSizeError` from the host range API
instead of being clamped into `[0, length]`. -/
theorem c4_invalid_offsets (pre post : List DNode) (tid : Nat)
    (s : List Char) (wtag : String) (a b fresh : Nat)
    (hpre : tid ∉ topIds pre) :
    (a ≤ s.length → b < a →
      wrapTextNode (pre ++ .text tid s :: post) tid wtag (some a) (some b)
        fresh =
        .ok (pre ++ wrapGroup tid s wtag b b fresh ++ post, .cap fresh)) ∧
    (s.length < a → ∀ b? : Option Nat,
      wrapTextNode (pre ++ .text tid s :: post) tid wtag (some a) b? fresh =
        .error .indexSize) ∧
    (s.length < b →
      wrapTextNode (pre ++ .text tid s :: post) tid wtag none (some b)
        fresh = .error .indexSize) := by
  refine ⟨fun han hba => ?_, fun han b? => ?_, fun hbn => ?_⟩
  · exact wrapTextNode_decomp pre post tid s wtag (some a) (some b) b b fresh
      hpre (effRange_collapse s.length a b han hba)
  · exact wrapTextNode_decomp_err pre post tid s wtag (some a) b? fresh
      .indexSize hpre (effRange_start_oob s.length a b? han)
  · exact wrapTextNode_decomp_err pre post tid s wtag none (some b) fresh
      .indexSize hpre (effRange_end_oob s.length b hbn)

/-- C4 witness: the corrected claim at the leaf `"abc"` with the out-of-order
pair `(2, 1)` and the out-of-range offsets `5`. -/
theorem c4_invalid_offsets_witness :
    wrapTextNode ([] ++ .text 0 "abc".data :: []) 0 "span" (some 2) (some 1)
      10 = .ok ([] ++ wrapGroup 0 "abc".data "span" 1 1 10 ++ [], .cap 10) ∧
    wrapTextNode ([] ++ .text 0 "abc".data :: []) 0 "span" (some 5) none 10 =
      .error .indexSize ∧
    wrapTextNode ([] ++ .text 0 "abc".data :: []) 0 "span" none (some 4) 10 =
      .error .indexSize :=
  ⟨(c4_invalid_offsets [] [] 0 "abc".data "span" 2 1 10 (by decide)).1
      (by decide) (by decide),
   (c4_invalid_offsets [] [] 0 "abc".data "span" 5 1 10 (by decide)).2.1
      (by decide) none,
   (c4_invalid_offsets [] [] 0 "abc".data "span" 2 4 10 (by decide)).2.2
      (by decide)⟩

/-- C5 counterexample: wrapping the empty leaf does insert an (empty) wrapper
clone at the leaf's position, but the returned undo capability is *not*
working: invoking it raises a `TypeError`, because the childless wrapper has
no first child to reinsert (`newParent.firstChild!` is `null`). -/
theorem c5_wrap_empty_leaf_cex :
    wrapTextNode [.text 0 []] 0 "span" none none 10 =
      .ok ([.text 0 [], .elem 10 "span" [], .text 12 []], .cap 10) ∧
    applyUndo (.cap 10) [.text 0 [], .elem 10 "span" [], .text 12 []] =
      .error .typeError := ⟨rfl, rfl⟩

/-- C5 corrected: `wrapTextNode` never skips a text leaf based on its
content — with default offsets it always splices the wrapper clone in at the
leaf's position, also for an empty or whitespace-only leaf.  (The returned
undo capability works only when the wrapped slice is nonempty; for an empty
leaf invoking it raises a `TypeError`, see the counterexample.) -/
theorem c5_wrap_never_skips (pre post : List DNode) (tid : Nat)
    (s : List Char) (wtag : String) (fresh : Nat)
    (hpre : tid ∉ topIds pre) :
    wrapTextNode (pre ++ .text tid s :: post) tid wtag none none fresh =
      .ok (pre ++ wrapGroup tid s wtag 0 s.length fresh ++ post,
        .cap fresh) :=
  wrapTextNode_decomp pre post tid s wtag none none 0 s.length fresh hpre
    (effRange_defaults s.length)

/-- C5 witness: the corrected claim at a whitespace-only leaf `" "` (which
the current source no longer skips) and at the empty leaf `""`. -/
theorem c5_wrap_never_skips_witness :
    wrapTextNode ([] ++ .text 0 " ".data :: []) 0 "span" none none 10 =
      .ok ([] ++ wrapGroup 0 " ".data "span" 0 " ".data.length 10 ++ [],
        .cap 10) ∧
    wrapTextNode ([] ++ .text 7 [] :: []) 7 "em" none none 20 =
      .ok ([] ++ wrapGroup 7 [] "em" 0 ([] : List Char).length 20 ++ [],
        .cap 20) :=
  ⟨c5_wrap_never_skips [] [] 0 " ".data "span" 10 (by decide),
   c5_wrap_never_skips [] [] 7 [] "em" 20 (by decide)⟩

/-- C6 counterexample: the full-leaf wrap of `"ab"` (offsets `(0, 2)`) does
not replace the leaf in place with one container: the before/after siblings
are not omitted at `a = 0` / `b = n` — they remain as empty text nodes, so
the wrapper is flanked by two empty siblings, three nodes in total. -/
theorem c6_wrap_structure_cex :
    wrapTextNode [.text 0 "ab".data] 0 "span" (some 0) (some 2) 10 =
      .ok ([.text 0 [], .elem 10 "span" [.text 11 "ab".data], .text 12 []],
        .cap 10) ∧
    ([.text 0 [], .elem 10 "span" [.text 11 "ab".data], .text 12 []] :
      List DNode) ≠ [.elem 10 "span" [.text 11 "ab".data]] :=
  ⟨rfl, by decide⟩

/-- C6 corrected: for `a ≤ b ≤ n`, `wrapTextNode` excises the `[a, b)` slice
of the leaf's content into a clone of the wrapper inserted at the leaf's
position, leaving exactly three siblings in document order: the text node
with the content before `a`, the wrapper containing the slice (childless
when `a = b`), and a text node with the content after `b`.  The before/after
siblings are *empty* — not omitted — when `a = 0` / `b = n`; in particular
the scenario `"wrap me"` with offsets `(1, 4)` yields siblings `"w"`,
wrapper containing `"rap"`, `" me"`, and a full-leaf wrap yields the
container with the original content flanked by two empty text nodes. -/
theorem c6_wrap_structure (pre post : List DNode) (tid : Nat) (s : List Char)
    (wtag : String) (a b fresh : Nat) (hpre : tid ∉ topIds pre)
    (hab : a ≤ b) (hbn : b ≤ s.length) :
    wrapTextNode (pre ++ .text tid s :: post) tid wtag (some a) (some b)
      fresh =
      .ok (pre ++
        [.text tid (s.take a),
         .elem fresh wtag
           (if a < b then [.text (fresh + 1) ((s.take b).drop a)] else []),
         .text (fresh + 2) (s.drop b)] ++ post, .cap fresh) :=
  wrapTextNode_decomp pre post tid s wtag (some a) (some b) a b fresh hpre
    (effRange_ordered s.length a b hab hbn)

/-- C6 witness: the corrected claim at the spec's scenario — leaf
`"wrap me"`, offsets `(1, 4)` — giving the three siblings `"w"`, wrapper
containing `"rap"`, `" me"`. -/
theorem c6_wrap_structure_witness :
    wrapTextNode ([] ++ .text 0 "wrap me".data :: []) 0 "span" (some 1)
      (some 4) 10 =
      .ok ([] ++
        [.text 0 "w".data, .elem 10 "span" [.text 11 "rap".data],
         .text 12 " me".data] ++ [], .cap 10) := by
  have h := c6_wrap_structure [] [] 0 "wrap me".data "span" 1 4 10
    (by decide) (by decide) (by decide)
  exact h

/-- C2 counterexample: for the valid offset pair `a = b = 1` on the attached
leaf `"ab"`, the wrap inserts a childless wrapper, and invoking the returned
undo raises a `TypeError` instead of restoring the subtree: the round trip
fails for empty slices. -/
theorem c2_roundtrip_cex :
    wrapTextNode [.text 0 "ab".data] 0 "span" (some 1) (some 1) 10 =
      .ok ([.text 0 "a".data, .elem 10 "span" [], .text 12 "b".data],
        .cap 10) ∧
    applyUndo (.cap 10)
      [.text 0 "a".data, .elem 10 "span" [], .text 12 "b".data] =
      .error .typeError := ⟨rfl, rfl⟩

/-- C2 corrected: for every attached text leaf, wrapper tag, and offset pair
`a < b ≤ n` (nonempty slice), invoking the undo returned by `wrapTextNode`
restores the parent's serialized character content and child ordering
exactly (the original leaf is left split into up to three adjacent text
nodes whose concatenation, in order, is the original data).  For `a = b` the
undo raises instead (see the counterexample). -/
theorem c2_wrap_unwrap_roundtrip (pre post : List DNode) (tid : Nat)
    (s : List Char) (wtag : String) (a b fresh : Nat)
    (hpre : tid ∉ topIds pre) (hfr : fresh ∉ topIds pre) (hft : fresh ≠ tid)
    (hab : a < b) (hbn : b ≤ s.length) :
    wrapTextNode (pre ++ .text tid s :: post) tid wtag (some a) (some b)
      fresh = .ok (pre ++ wrapGroup tid s wtag a b fresh ++ post,
        .cap fresh) ∧
    applyUndo (.cap fresh) (pre ++ wrapGroup tid s wtag a b fresh ++ post) =
      .ok (pre ++ .text tid (s.take a) :: .text (fresh + 1)
        ((s.take b).drop a) :: .text (fresh + 2) (s.drop b) :: post) ∧
    serializeList (pre ++ .text tid (s.take a) :: .text (fresh + 1)
        ((s.take b).drop a) :: .text (fresh + 2) (s.drop b) :: post) =
      serializeList (pre ++ .text tid s :: post) := by
  refine ⟨wrapTextNode_decomp pre post tid s wtag (some a) (some b) a b fresh
    hpre (effRange_ordered s.length a b (Nat.le_of_lt hab) hbn), ?_, ?_⟩
  · rw [applyUndo, wrapGroup, if_pos hab]
    have hd : fresh ∉ topIds (pre ++ [.text tid (s.take a)]) := by
      simp only [topIds, List.map_append, List.mem_append, List.map_cons,
        List.map_nil, List.mem_singleton, not_or]
      exact ⟨by simpa [topIds] using hfr, by simpa [topId] using hft⟩
    have h := unwrapById_decomp (pre ++ [.text tid (s.take a)]) fresh wtag
      (.text (fresh + 1) ((s.take b).drop a))
      [] (.text (fresh + 2) (s.drop b) :: post) hd
    simpa using h
  · rw [serializeList_append, serializeList_append]
    simp only [serializeList, serialize, List.append_assoc, List.nil_append]
    conv_rhs => rw [← take_append_slice_drop s a b (Nat.le_of_lt hab)]
    simp [List.append_assoc]

/-- C2 witness: the corrected round trip at the leaf `"wrap me"` with
offsets `(1, 4)`, next to a sibling leaf `"x"`. -/
theorem c2_wrap_unwrap_roundtrip_witness :
    wrapTextNode ([.text 9 "x".data] ++ .text 0 "wrap me".data :: []) 0
      "span" (some 1) (some 4) 10 =
      .ok ([.text 9 "x".data] ++
        wrapGroup 0 "wrap me".data "span" 1 4 10 ++ [], .cap 10) ∧
    applyUndo (.cap 10) ([.text 9 "x".data] ++
        wrapGroup 0 "wrap me".data "span" 1 4 10 ++ []) =
      .ok ([.text 9 "x".data] ++ .text 0 ("wrap me".data.take 1) ::
        .text 11 (("wrap me".data.take 4).drop 1) ::
        .text 12 ("wrap me".data.drop 4) :: []) ∧
    serializeList ([.text 9 "x".data] ++ .text 0 ("wrap me".data.take 1) ::
        .text 11 (("wrap me".data.take 4).drop 1) ::
        .text 12 ("wrap me".data.drop 4) :: []) =
      serializeList ([.text 9 "x".data] ++ .text 0 "wrap me".data :: []) :=
  c2_wrap_unwrap_roundtrip [.text 9 "x".data] [] 0 "wrap me".data "span" 1 4
    10 (by decide) (by decide) (by decide) (by decide) (by decide)

/-- C9: once the first invocation of the undo has detached the wrapper
(reinserting its first child in its place), a second invocation is a no-op:
`newParent.parentNode` is `null`, so nothing is mutated and no error is
raised. -/
theorem c9_second_undo_noop (pre post : List DNode) (wid : Nat)
    (wtag : String) (w0 : DNode) (ws : List DNode)
    (hpre : wid ∉ topIds pre) (hpost : wid ∉ topIds post)
    (hw0 : topId w0 ≠ wid) :
    applyUndo (.cap wid) (pre ++ .elem wid wtag (w0 :: ws) :: post) =
      .ok (pre ++ w0 :: post) ∧
    applyUndo (.cap wid) (pre ++ w0 :: post) = .ok (pre ++ w0 :: post) := by
  constructor
  · rw [applyUndo]
    exact unwrapById_decomp pre wid wtag w0 ws post hpre
  · rw [applyUndo]
    refine unwrapById_not_found (pre ++ w0 :: post) wid ?_
    simp only [topIds, List.map_append, List.map_cons, List.mem_append,
      List.mem_cons, not_or]
    refine ⟨by simpa [topIds] using hpre, fun h => hw0 h.symm,
      by simpa [topIds] using hpost⟩

/-- C9 witness: the no-op second undo on a concrete detached wrapper. -/
theorem c9_second_undo_noop_witness :
    applyUndo (.cap 10) ([.text 1 "a".data] ++
        .elem 10 "span" [.text 11 "b".data] :: [.text 2 "c".data]) =
      .ok ([.text 1 "a".data] ++ .text 11 "b".data :: [.text 2 "c".data]) ∧
    applyUndo (.cap 10) ([.text 1 "a".data] ++
        .text 11 "b".data :: [.text 2 "c".data]) =
      .ok ([.text 1 "a".data] ++ .text 11 "b".data :: [.text 2 "c".data]) :=
  c9_second_undo_noop [.text 1 "a".data] [.text 2 "c".data] 10 "span"
    (.text 11 "b".data) [] (by decide) (by decide) (by decide)

/-- The loop of `getRangesOfText` for a non-global regex agrees with the
stateless per-leaf first-match probe. -/
theorem getRangesOfTextGo_nonglobal (doc : DNode) (re : JsRegExp)
    (hng : re.global = false) : ∀ ps : List (List Nat),
    getRangesOfTextGo doc re ps = ps.filterMap (fun p =>
      (findFrom (textDataAt doc p) re.source 0).map
        (fun i => ⟨p, i, p, i + re.source.length⟩))
  | [] => rfl
  | p :: ps => by
      have hexec : re.exec (textDataAt doc p) =
          (match findFrom (textDataAt doc p) re.source 0 with
           | some i => (some (i, re.source.length), re)
           | none => (none, re)) := by
        rw [JsRegExp.exec, hng]
        simp
      rw [getRangesOfTextGo, hexec, List.filterMap_cons]
      cases hf : findFrom (textDataAt doc p) re.source 0 with
      | none =>
        simp only [hf, Option.map_none']
        exact getRangesOfTextGo_nonglobal doc re hng ps
      | some i =>
        simp only [hf, Option.map_some']
        rw [getRangesOfTextGo_nonglobal doc re hng ps]

/-- C3 counterexample: with the global literal pattern `/a/g` over the tree
`<div>xxa|a</div>` (two adjacent text leaves `"xxa"` and `"a"`),
`getRangesOfText` reports only the span in the first leaf: the `exec` probe
of the second leaf resumes at the `lastIndex` (3) left by the first probe,
beyond the second leaf's length, so the leaf's own first match at index 0 is
missed — probing is neither independent nor "first match within that leaf's
content" for a pattern configured for multiple matches per input. -/
theorem c3_pattern_spans_cex :
    getRangesOfText (.elem 0 "div" [.text 1 "xxa".data, .text 2 "a".data])
      [] ⟨"a".data, true, 0⟩ = [⟨[0], 2, [0], 3⟩] ∧
    independentFirstMatchSpans
      (.elem 0 "div" [.text 1 "xxa".data, .text 2 "a".data])
      [] ⟨"a".data, true, 0⟩ =
      [⟨[0], 2, [0], 3⟩, ⟨[1], 0, [1], 1⟩] ∧
    getRangesOfText (.elem 0 "div" [.text 1 "xxa".data, .text 2 "a".data])
        [] ⟨"a".data, true, 0⟩ ≠
      independentFirstMatchSpans
        (.elem 0 "div" [.text 1 "xxa".data, .text 2 "a".data])
        [] ⟨"a".data, true, 0⟩ := by
  refine ⟨rfl, rfl, ?_⟩
  decide

/-- C3 corrected: for a pattern *not* configured for multiple matches per
input (no `g` flag), `getRangesOfText` probes each text leaf independently
against that leaf's own content only, takes only the first match location
within it, yields at most one span per leaf anchored entirely within that
leaf as `(leaf, matchStart, leaf, matchStart + matchLength)`, and returns
the spans in leaf traversal order — it equals the stateless per-leaf
first-match semantics.  A global pattern instead carries its `lastIndex`
state from one probe to the next (see the counterexample). -/
theorem c3_pattern_spans_nonglobal (doc : DNode) (rootPath : List Nat)
    (re : JsRegExp) (hng : re.global = false) :
    getRangesOfText doc rootPath re =
      independentFirstMatchSpans doc rootPath re := by
  rw [getRangesOfText, independentFirstMatchSpans,
    getRangesOfTextGo_nonglobal doc re hng]

/-- C3 witness: the corrected claim at the two-leaf tree and the non-global
literal pattern `/a/`. -/
theorem c3_pattern_spans_nonglobal_witness :
    getRangesOfText (.elem 0 "div" [.text 1 "xxa".data, .text 2 "a".data])
      [] ⟨"a".data, false, 0⟩ =
      independentFirstMatchSpans
        (.elem 0 "div" [.text 1 "xxa".data, .text 2 "a".data])
        [] ⟨"a".data, false, 0⟩ :=
  c3_pattern_spans_nonglobal
    (.elem 0 "div" [.text 1 "xxa".data, .text 2 "a".data]) []
    ⟨"a".data, false, 0⟩ rfl

/-! ### Frame lemmas for document-level wrapping -/

/-- All node ids of the document lie below the fresh-id counter (true of any
real DOM snapshot: ids model object identities, the counter models
allocation). -/
def IdsBelow (doc : DNode) (fresh : Nat) : Prop :=
  ∀ i ∈ nodeIds doc, i < fresh

instance (doc : DNode) (fresh : Nat) : Decidable (IdsBelow doc fresh) :=
  inferInstanceAs (Decidable (∀ i ∈ nodeIds doc, i < fresh))

theorem findNodeList_append (tid : Nat) : ∀ (l1 l2 : List DNode),
    findNodeList tid (l1 ++ l2) =
      match findNodeList tid l1 with
      | some n => some n
      | none => findNodeList tid l2
  | [], l2 => rfl
  | c :: cs, l2 => by
      rw [List.cons_append, findNodeList, findNodeList]
      cases findNode tid c with
      | none => exact findNodeList_append tid cs l2
      | some n => rfl

mutual

/-- A subtree without the id has no `findNode` hit. -/
def findNode_eq_none (tid : Nat) : ∀ (n : DNode), tid ∉ nodeIds n →
    findNode tid n = none
  | .text i d, h => by
      rw [findNode, if_neg (fun hh => h (by simp [nodeIds, hh]))]
  | .elem i t cs, h => by
      rw [findNode, if_neg (fun hh => h (by simp [nodeIds, hh]))]
      exact findNodeList_eq_none tid cs
        (fun hh => h (by simp [nodeIds, hh]))

/-- A sibling list without the id has no `findNodeList` hit. -/
def findNodeList_eq_none (tid : Nat) : ∀ (cs : List DNode),
    tid ∉ nodeIdsList cs → findNodeList tid cs = none
  | [], _ => rfl
  | c :: cs, h => by
      rw [findNodeList,
        findNode_eq_none tid c (fun hh => h (by simp [nodeIdsList, hh]))]
      exact findNodeList_eq_none tid cs
        (fun hh => h (by simp [nodeIdsList, hh]))

end

mutual

/-- `replaceDoc` commutes with reference lookup: looking up a node other than
the replaced text node (and not among the ids of the splice) finds the same
node, with the replacement applied inside it. -/
def findNode_replaceDoc (tid tid' : Nat) (group : List DNode)
    (hne : tid ≠ tid') (hg : findNodeList tid group = none) :
    ∀ n, findNode tid (replaceDoc tid' group n) =
      (findNode tid n).map (replaceDoc tid' group)
  | .text i d => by
      by_cases h : i = tid
      · simp [replaceDoc, findNode, h]
      · simp [replaceDoc, findNode, h]
  | .elem i t cs => by
      by_cases h : i = tid
      · simp [replaceDoc, findNode, h]
      · simp only [replaceDoc, findNode, if_neg h]
        exact findNodeList_replaceDocList tid tid' group hne hg cs

/-- `findNode_replaceDoc` over a sibling list. -/
def findNodeList_replaceDocList (tid tid' : Nat) (group : List DNode)
    (hne : tid ≠ tid') (hg : findNodeList tid group = none) :
    ∀ cs, findNodeList tid (replaceDocList tid' group cs) =
      (findNodeList tid cs).map (replaceDoc tid' group)
  | [] => by
      simp [replaceDocList, findNodeList]
  | .text i d :: cs => by
      have ih := findNodeList_replaceDocList tid tid' group hne hg cs
      by_cases h : i = tid'
      · have hit : i ≠ tid := fun hh => hne (hh.symm.trans h)
        rw [replaceDocList, replaceDocSplice, if_pos h, findNodeList_append,
          hg]
        simp only [findNodeList, findNode, if_neg hit, ih]
      · by_cases h2 : i = tid
        · subst h2
          rw [replaceDocList, replaceDocSplice, if_neg h,
            List.singleton_append]
          simp [findNodeList, findNode, replaceDoc]
        · rw [replaceDocList, replaceDocSplice, if_neg h,
            List.singleton_append]
          simp only [findNodeList, findNode, if_neg h2, ih]
  | .elem i t cs' :: cs => by
      have ih := findNodeList_replaceDocList tid tid' group hne hg cs
      have ihn := findNode_replaceDoc tid tid' group hne hg (.elem i t cs')
      rw [replaceDoc] at ihn
      rw [replaceDocList, replaceDocSplice, List.singleton_append,
        findNodeList, findNodeList, ihn]
      cases findNode tid (.elem i t cs') with
      | none => simpa using ih
      | some n => rfl

end

theorem nodeIdsList_append : ∀ (l1 l2 : List DNode),
    nodeIdsList (l1 ++ l2) = nodeIdsList l1 ++ nodeIdsList l2
  | [], l2 => rfl
  | c :: cs, l2 => by
      rw [List.cons_append, nodeIdsList, nodeIdsList,
        nodeIdsList_append cs l2, List.append_assoc]

mutual

/-- Any id of the rewritten document is an original id or an id of the
splice. -/
def mem_nodeIds_replaceDoc (tid' : Nat) (group : List DNode) (i : Nat) :
    ∀ n, i ∈ nodeIds (replaceDoc tid' group n) →
      i ∈ nodeIds n ∨ i ∈ nodeIdsList group
  | .text j d, h => by
      rw [replaceDoc] at h
      exact Or.inl h
  | .elem j t cs, h => by
      rw [replaceDoc, nodeIds] at h
      rcases List.mem_cons.mp h with h | h
      · exact Or.inl (by simp [nodeIds, h])
      · rcases mem_nodeIdsList_replaceDocList tid' group i cs h with h | h
        · exact Or.inl (by simp [nodeIds, h])
        · exact Or.inr h

/-- `mem_nodeIds_replaceDoc` over a sibling list. -/
def mem_nodeIdsList_replaceDocList (tid' : Nat) (group : List DNode)
    (i : Nat) : ∀ cs, i ∈ nodeIdsList (replaceDocList tid' group cs) →
      i ∈ nodeIdsList cs ∨ i ∈ nodeIdsList group
  | [], h => by
      rw [replaceDocList] at h
      exact Or.inl h
  | .text j d :: cs, h => by
      rw [replaceDocList, replaceDocSplice] at h
      by_cases hj : j = tid'
      · rw [if_pos hj] at h
        rw [nodeIdsList_append] at h
        rcases List.mem_append.mp h with h | h
        · exact Or.inr h
        · rcases mem_nodeIdsList_replaceDocList tid' group i cs h with h | h
          · exact Or.inl (by simp [nodeIdsList, h])
          · exact Or.inr h
      · rw [if_neg hj, List.singleton_append, nodeIdsList] at h
        rcases List.mem_append.mp h with h | h
        · exact Or.inl (by simp [nodeIdsList, h])
        · rcases mem_nodeIdsList_replaceDocList tid' group i cs h with h | h
          · exact Or.inl (by simp [nodeIdsList, h])
          · exact Or.inr h
  | .elem j t cs' :: cs, h => by
      rw [replaceDocList, replaceDocSplice, List.singleton_append,
        nodeIdsList] at h
      rcases List.mem_append.mp h with h | h
      · rw [nodeIds] at h
        rcases List.mem_cons.mp h with h | h
        · exact Or.inl (by simp [nodeIdsList, nodeIds, h])
        · rcases mem_nodeIdsList_replaceDocList tid' group i cs' h with h | h
          · exact Or.inl (by simp [nodeIdsList, nodeIds, h])
          · exact Or.inr h
      · rcases mem_nodeIdsList_replaceDocList tid' group i cs h with h | h
        · exact Or.inl (by simp [nodeIdsList, h])
        · exact Or.inr h

end

theorem mem_nodeIdsList_wrapGroup {i tid : Nat} {s : List Char}
    {wtag : String} {st en fresh : Nat}
    (h : i ∈ nodeIdsList (wrapGroup tid s wtag st en fresh)) :
    i = tid ∨ (fresh ≤ i ∧ i < fresh + 3) := by
  by_cases hlt : st < en
  · simp [wrapGroup, hlt, nodeIdsList, nodeIds] at h
    rcases h with h | h | h | h
    · exact Or.inl h
    all_goals
      right
      omega
  · simp [wrapGroup, hlt, nodeIdsList, nodeIds] at h
    rcases h with h | h | h
    · exact Or.inl h
    all_goals
      right
      omega

mutual

/-- A successful reference lookup means the id occurs in the subtree. -/
def findNode_mem_nodeIds {tid : Nat} : ∀ {doc n : DNode},
    findNode tid doc = some n → tid ∈ nodeIds doc
  | .text i d, n, h => by
      rw [findNode] at h
      by_cases hi : i = tid
      · simp [nodeIds, hi]
      · rw [if_neg hi] at h
        exact absurd h (by simp)
  | .elem i t cs, n, h => by
      rw [findNode] at h
      by_cases hi : i = tid
      · simp [nodeIds, hi]
      · rw [if_neg hi] at h
        simp only [nodeIds, List.mem_cons]
        exact Or.inr (findNodeList_mem_nodeIdsList h)

/-- `findNode_mem_nodeIds` over a sibling list. -/
def findNodeList_mem_nodeIdsList {tid : Nat} : ∀ {cs : List DNode}
    {n : DNode}, findNodeList tid cs = some n → tid ∈ nodeIdsList cs
  | [], n, h => by simp [findNodeList] at h
  | c :: cs, n, h => by
      rw [findNodeList] at h
      simp only [nodeIdsList, List.mem_append]
      cases hc : findNode tid c with
      | some m => exact Or.inl (findNode_mem_nodeIds hc)
      | none =>
        rw [hc] at h
        exact Or.inr (findNodeList_mem_nodeIdsList h)

end

/-- A single document-level wrap of a different text node leaves the given
text reference intact, and keeps all ids below the advanced counter. -/
theorem wrapTextNodeDoc_frame (doc : DNode) (tid' : Nat) (wtag : String)
    (a? b? : Option Nat) (fresh : Nat) (d1 : DNode) (cap : UndoCap)
    (f1 : Nat) (tid : Nat) (s : List Char) (hne : tid ≠ tid')
    (hlt : tid < fresh) (hb : IdsBelow doc fresh)
    (hfind : findNode tid doc = some (.text tid s))
    (hok : wrapTextNodeDoc doc tid' wtag a? b? fresh = .ok (d1, cap, f1)) :
    findNode tid d1 = some (.text tid s) ∧ IdsBelow d1 f1 ∧ fresh ≤ f1 := by
  rw [wrapTextNodeDoc.eq_def] at hok
  cases hfn : findNode tid' doc with
  | none =>
    rw [hfn] at hok
    simp only [Except.ok.injEq, Prod.mk.injEq] at hok
    obtain ⟨h1, _, h3⟩ := hok
    subst h1; subst h3
    exact ⟨hfind, hb, Nat.le_refl fresh⟩
  | some m =>
    cases m with
    | elem mi mt mcs =>
      rw [hfn] at hok
      simp only [Except.ok.injEq, Prod.mk.injEq] at hok
      obtain ⟨h1, _, h3⟩ := hok
      subst h1; subst h3
      exact ⟨hfind, hb, Nat.le_refl fresh⟩
    | text mi ms =>
      rw [hfn] at hok
      have hok2 : (effRange ms.length a? b? >>= fun p =>
          if topId doc = tid' then Except.error DomErr.hierarchyRequest
          else Except.ok
            (replaceDoc tid' (wrapGroup tid' ms wtag p.1 p.2 fresh) doc,
              UndoCap.cap fresh, fresh + 3)) =
          Except.ok (d1, cap, f1) := hok
      clear hok
      cases heff : effRange ms.length a? b? with
      | error e =>
        rw [heff] at hok2
        have hok3 : (Except.error e : Except DomErr (DNode × UndoCap × Nat)) =
            Except.ok (d1, cap, f1) := hok2
        exact absurd hok3 (by simp)
      | ok p =>
        obtain ⟨st, en⟩ := p
        rw [heff] at hok2
        have hok3 : (if topId doc = tid'
            then (Except.error DomErr.hierarchyRequest :
              Except DomErr (DNode × UndoCap × Nat))
            else Except.ok
              (replaceDoc tid' (wrapGroup tid' ms wtag st en fresh) doc,
                UndoCap.cap fresh, fresh + 3)) =
            Except.ok (d1, cap, f1) := hok2
        clear hok2
        by_cases htop : topId doc = tid'
        · rw [if_pos htop] at hok3
          simp at hok3
        · rw [if_neg htop] at hok3
          simp only [Except.ok.injEq, Prod.mk.injEq] at hok3
          obtain ⟨h1, _, h3⟩ := hok3
          have hg : findNodeList tid
              (wrapGroup tid' ms wtag st en fresh) = none := by
            refine findNodeList_eq_none tid _ (fun hmem => ?_)
            rcases mem_nodeIdsList_wrapGroup hmem with h | h
            · exact hne h
            · omega
          refine ⟨?_, ?_, by omega⟩
          · rw [← h1, findNode_replaceDoc tid tid' _ hne hg doc, hfind]
            rfl
          · intro i hi
            rw [← h1] at hi
            rcases mem_nodeIds_replaceDoc tid' _ i doc hi with h | h
            · have := hb i h
              omega
            · rcases mem_nodeIdsList_wrapGroup h with h | h
              · have := hb tid' (findNode_mem_nodeIds hfn)
                omega
              · omega

/-- Through the wrap loop, a located leaf for which the predicate is false is
never mutated: its reference still resolves to the same text node. -/
theorem wrapEachDoc_frame (wtag : String) (f : Nat → Bool)
    (sid? eid? : Option Nat) (so eo : Nat) (tid : Nat) (s : List Char) :
    ∀ (ls : List Nat) (doc : DNode) (fresh : Nat) (doc' : DNode)
      (caps : List UndoCap) (fresh' : Nat),
    IdsBelow doc fresh → tid < fresh → f tid = false →
    findNode tid doc = some (.text tid s) →
    wrapEachDoc wtag (some f) sid? eid? so eo ls doc fresh =
      .ok (doc', caps, fresh') →
    findNode tid doc' = some (.text tid s)
  | [], doc, fresh, doc', caps, fresh', hb, hlt, hf, hfind, hok => by
      rw [wrapEachDoc] at hok
      simp only [Except.ok.injEq, Prod.mk.injEq] at hok
      obtain ⟨h1, _, _⟩ := hok
      rw [← h1]
      exact hfind
  | tid' :: rest, doc, fresh, doc', caps, fresh', hb, hlt, hf, hfind,
      hok => by
      rw [wrapEachDoc] at hok
      by_cases hp : f tid'
      · rw [if_neg (by simp [hp])] at hok
        have hok2 : (do
            let v ← wrapTextNodeDoc doc tid' wtag
              (if sid? = some tid' then some so else none)
              (if eid? = some tid' then some eo else none) fresh
            let w ← wrapEachDoc wtag (some f) sid? eid? so eo rest v.1
              v.2.2
            Except.ok (w.1, v.2.1 :: w.2.1, w.2.2)) =
            Except.ok (doc', caps, fresh') := hok
        clear hok
        cases h1 : wrapTextNodeDoc doc tid' wtag
            (if sid? = some tid' then some so else none)
            (if eid? = some tid' then some eo else none) fresh with
        | error e =>
          rw [h1] at hok2
          have hok3 : (Except.error e :
              Except DomErr (DNode × List UndoCap × Nat)) =
              Except.ok (doc', caps, fresh') := hok2
          exact absurd hok3 (by simp)
        | ok v =>
          obtain ⟨d1, cap, f1⟩ := v
          rw [h1] at hok2
          have hok3 : (do
              let w ← wrapEachDoc wtag (some f) sid? eid? so eo rest d1 f1
              Except.ok (w.1, cap :: w.2.1, w.2.2)) =
              Except.ok (doc', caps, fresh') := hok2
          clear hok2
          cases h2 : wrapEachDoc wtag (some f) sid? eid? so eo rest d1
              f1 with
          | error e =>
            rw [h2] at hok3
            have hok4 : (Except.error e :
                Except DomErr (DNode × List UndoCap × Nat)) =
                Except.ok (doc', caps, fresh') := hok3
            exact absurd hok4 (by simp)
          | ok w =>
            obtain ⟨d2, caps2, f2⟩ := w
            rw [h2] at hok3
            have hok4 : Except.ok (d2, cap :: caps2, f2) =
                (Except.ok (doc', caps, fresh') :
                  Except DomErr (DNode × List UndoCap × Nat)) := hok3
            simp only [Except.ok.injEq, Prod.mk.injEq] at hok4
            obtain ⟨hd, _, _⟩ := hok4
            have hne : tid ≠ tid' := fun hh => by
              rw [hh] at hf
              rw [hf] at hp
              exact absurd hp (by simp)
            obtain ⟨hfind1, hb1, hle1⟩ := wrapTextNodeDoc_frame doc tid'
              wtag _ _ fresh d1 cap f1 tid s hne hlt hb hfind h1
            have := wrapEachDoc_frame wtag f sid? eid? so eo tid s rest d1
              f1 d2 caps2 f2 hb1 (by omega) hf hfind1 h2
            rw [← hd]
            exact this
      · rw [if_pos (by simp [hp])] at hok
        exact wrapEachDoc_frame wtag f sid? eid? so eo tid s rest doc fresh
          doc' caps fresh' hb hlt hf hfind hok

/-- The loop collects exactly one undo entry per predicate-passing leaf. -/
theorem wrapEachDoc_caps (wtag : String) (f : Nat → Bool)
    (sid? eid? : Option Nat) (so eo : Nat) :
    ∀ (ls : List Nat) (doc : DNode) (fresh : Nat) (doc' : DNode)
      (caps : List UndoCap) (fresh' : Nat),
    wrapEachDoc wtag (some f) sid? eid? so eo ls doc fresh =
      .ok (doc', caps, fresh') →
    caps.length = (ls.filter f).length
  | [], doc, fresh, doc', caps, fresh', hok => by
      rw [wrapEachDoc] at hok
      simp only [Except.ok.injEq, Prod.mk.injEq] at hok
      obtain ⟨_, h2, _⟩ := hok
      rw [← h2]
      rfl
  | tid' :: rest, doc, fresh, doc', caps, fresh', hok => by
      rw [wrapEachDoc] at hok
      by_cases hp : f tid'
      · rw [if_neg (by simp [hp])] at hok
        have hok2 : (do
            let v ← wrapTextNodeDoc doc tid' wtag
              (if sid? = some tid' then some so else none)
              (if eid? = some tid' then some eo else none) fresh
            let w ← wrapEachDoc wtag (some f) sid? eid? so eo rest v.1
              v.2.2
            Except.ok (w.1, v.2.1 :: w.2.1, w.2.2)) =
            Except.ok (doc', caps, fresh') := hok
        clear hok
        cases h1 : wrapTextNodeDoc doc tid' wtag
            (if sid? = some tid' then some so else none)
            (if eid? = some tid' then some eo else none) fresh with
        | error e =>
          rw [h1] at hok2
          have hok3 : (Except.error e :
              Except DomErr (DNode × List UndoCap × Nat)) =
              Except.ok (doc', caps, fresh') := hok2
          exact absurd hok3 (by simp)
        | ok v =>
          obtain ⟨d1, cap, f1⟩ := v
          rw [h1] at hok2
          have hok3 : (do
              let w ← wrapEachDoc wtag (some f) sid? eid? so eo rest d1 f1
              Except.ok (w.1, cap :: w.2.1, w.2.2)) =
              Except.ok (doc', caps, fresh') := hok2
          clear hok2
          cases h2 : wrapEachDoc wtag (some f) sid? eid? so eo rest d1
              f1 with
          | error e =>
            rw [h2] at hok3
            have hok4 : (Except.error e :
                Except DomErr (DNode × List UndoCap × Nat)) =
                Except.ok (doc', caps, fresh') := hok3
            exact absurd hok4 (by simp)
          | ok w =>
            obtain ⟨d2, caps2, f2⟩ := w
            rw [h2] at hok3
            have hok4 : Except.ok (d2, cap :: caps2, f2) =
                (Except.ok (doc', caps, fresh') :
                  Except DomErr (DNode × List UndoCap × Nat)) := hok3
            simp only [Except.ok.injEq, Prod.mk.injEq] at hok4
            obtain ⟨_, hc, _⟩ := hok4
            rw [← hc, List.filter_cons_of_pos hp, List.length_cons,
              List.length_cons,
              wrapEachDoc_caps wtag f sid? eid? so eo rest d1 f1 d2 caps2
                f2 h2]
      · rw [if_pos (by simp [hp])] at hok
        rw [List.filter_cons_of_neg (by simp [hp])]
        exact wrapEachDoc_caps wtag f sid? eid? so eo rest doc fresh doc'
          caps fresh' hok

/-- C8: in a `wrapRangeTextNodes` call supplied with a `shouldWrapNode`
predicate, every located leaf for which the predicate returns `false` is
left entirely untouched — its reference still resolves to the same text node
with the same data after the call — and contributes no entry to the returned
undo set: the collected undo closures correspond exactly, one each, to the
predicate-passing located leaves. -/
theorem c8_shouldWrap_skip_frame (doc : DNode) (r : DRange) (wtag : String)
    (tags : List String) (f : Nat → Bool) (fresh : Nat) (tid : Nat)
    (s : List Char) (doc' : DNode) (caps : List UndoCap) (fresh' : Nat)
    (hb : IdsBelow doc fresh) (hmem : tid ∈ locatedIds doc r tags)
    (hf : f tid = false)
    (hfind : findNode tid doc = some (.text tid s))
    (hok : wrapRangeTextNodes doc r wtag tags (some f) fresh =
      .ok (doc', caps, fresh')) :
    findNode tid doc' = some (.text tid s) ∧
    caps.length = ((locatedIds doc r tags).filter f).length := by
  have hlt : tid < fresh := hb tid (findNode_mem_nodeIds hfind)
  rw [wrapRangeTextNodes] at hok
  exact ⟨wrapEachDoc_frame wtag f _ _ r.startOff r.endOff tid s
      (locatedIds doc r tags) doc fresh doc' caps fresh' hb hlt hf hfind
      hok,
    wrapEachDoc_caps wtag f _ _ r.startOff r.endOff
      (locatedIds doc r tags) doc fresh doc' caps fresh' hok⟩

/-- Decidable equality of host results, for concrete evaluation. -/
instance {e a : Type} [DecidableEq e] [DecidableEq a] :
    DecidableEq (Except e a)
  | .ok x, .ok y => decidable_of_iff (x = y) (by simp)
  | .error x, .error y => decidable_of_iff (x = y) (by simp)
  | .ok _, .error _ => isFalse (by simp)
  | .error _, .ok _ => isFalse (by simp)

/-- The document of the C8 witness: the repo's `wrapSelectedTextNodes` test
tree `<div>text1<p><a>text2</a>text3</p>text4</div>`. -/
def docC8 : DNode :=
  .elem 0 "div" [.text 1 "text1".data,
    .elem 2 "p" [.elem 3 "a" [.text 4 "text2".data], .text 5 "text3".data],
    .text 6 "text4".data]

/-- The same document after `wrapRangeTextNodes` over children `[0, 2)` of
the `<div>` with `shouldWrapNode` rejecting `text2` (id 4). -/
def docC8w : DNode :=
  .elem 0 "div" [.text 1 [],
    .elem 10 "span" [.text 11 "text1".data],
    .text 12 [],
    .elem 2 "p" [.elem 3 "a" [.text 4 "text2".data],
      .text 5 [],
      .elem 13 "span" [.text 14 "text3".data],
      .text 15 []],
    .text 6 "text4".data]

/-- C8 witness: on the concrete test tree, the predicate-rejected leaf
`text2` is untouched by the call and the undo set has exactly one entry per
wrapped leaf. -/
theorem c8_shouldWrap_skip_frame_witness :
    findNode 4 docC8w = some (.text 4 "text2".data) ∧
    ([UndoCap.cap 10, UndoCap.cap 13] : List UndoCap).length =
      ((locatedIds docC8 ⟨[], 0, [], 2⟩ []).filter
        (fun tid => tid != 4)).length :=
  c8_shouldWrap_skip_frame docC8 ⟨[], 0, [], 2⟩ "span" []
    (fun tid => tid != 4) 10 4 "text2".data docC8w
    [UndoCap.cap 10, UndoCap.cap 13] 16
    (by decide) (by decide) (by decide) (by decide) (by decide)

end TextRangeUtils
